/-
Verification of the Practice Manager discovery / identity-resolution core.

Shallow embedding of `src/practice_manager/discovery.py`, the status-merge
loop of `src/practice_manager/gui/main_window.py` (`_refresh_discovery`),
the item constructors of `src/practice_manager/data_model.py`, and
`src/practice_manager/decay.py` (`apply_decay`).

Modelling conventions:
* Python strings are modelled as `List Char` (`Str`); slicing, lowering and
  comparisons act on code points, as in Python.
* `pathlib.Path.stem` / `.suffix` are modelled by `splitName` following the
  pathlib rule (the last `.` splits, unless it is the first or last char).
* Python dicts carrying practice items are modelled as association lists with
  first-match lookup and overwrite-or-append assignment.
* Python `re` patterns are modelled by hand-written matchers over `Str`
  (`\s` is the ASCII whitespace class, `\d` is `0-9`).
* The iteration order of `set(pdfs_by_key) | set(wavs_by_key)` in
  `_discover_parts` is unspecified in Python (hash-based).  The model
  enumerates that key set canonically in ascending code-point order, a
  function of the key set alone.
* Float scores are modelled as rationals; `round(x, 1)` is modelled as exact
  rounding to one decimal.
* `datetime` parsing/formatting in `decay.py` is kept abstract: `apply_decay`
  takes the parser (`String → Option ℚ`, seconds since epoch, `none` models a
  raised exception), the current time in epoch seconds, and the formatted
  `now` string as parameters.
-/
import Mathlib

namespace PracticeManager

/-- Python strings, modelled as lists of code points. -/
abbrev Str := List Char

/-- Coerce a Lean string literal into the model's string type. -/
def strL (s : String) : Str := s.data

/-- Python `str.lower()` (ASCII range, which covers all names used here). -/
def lowerS (s : Str) : Str := s.map Char.toLower

/-- Membership of the ASCII whitespace class of Python's `\s`. -/
def isSpaceChar (c : Char) : Bool :=
  c = ' ' || c = '\t' || c = '\n' || c = '\r' || c = '\x0b' || c = '\x0c'

/-- ASCII decimal digit, Python's `\d` (ASCII case). -/
def isDigitChar (c : Char) : Bool := '0' ≤ c && c ≤ '9'

/-- A letter matching `[a-z]` under `re.IGNORECASE`. -/
def isAsciiLetter (c : Char) : Bool :=
  ('a' ≤ c && c ≤ 'z') || ('A' ≤ c && c ≤ 'Z')

/-- Python `needle in haystack` (substring containment). -/
def containsSub (needle : Str) : Str → Bool
  | [] => needle.isEmpty
  | c :: rest => needle.isPrefixOf (c :: rest) || containsSub needle rest

/-- Python `haystack.find(needle)`, as `Option` (None for `-1`). -/
def findSub (needle : Str) : Str → Option Nat
  | [] => if needle.isEmpty then some 0 else none
  | c :: rest =>
    if needle.isPrefixOf (c :: rest) then some 0
    else (findSub needle rest).map (· + 1)

/-- Python `s.endswith(t)`. -/
def endsWith (s t : Str) : Bool := t.reverse.isPrefixOf s.reverse

/-- Python `s.strip()` (whitespace from both ends). -/
def stripWS (s : Str) : Str :=
  ((s.dropWhile isSpaceChar).reverse.dropWhile isSpaceChar).reverse

/-- Index of the last occurrence of `c`, Python `s.rfind(c)` as `Option`. -/
def lastIdxOf (c : Char) : Str → Option Nat
  | [] => none
  | x :: xs =>
    match lastIdxOf c xs with
    | some j => some (j + 1)
    | none => if x = c then some 0 else none

/-- `pathlib` stem/suffix split: the suffix starts at the last `.` provided
that dot is neither the first nor the last character of the name. -/
def splitName (name : Str) : Str × Str :=
  match lastIdxOf '.' name with
  | some i =>
    if 0 < i ∧ i < name.length - 1 then (name.take i, name.drop i)
    else (name, [])
  | none => (name, [])

/-- `Path(name).stem`. -/
def stemOf (name : Str) : Str := (splitName name).1

/-- `Path(name).suffix`. -/
def suffixOf (name : Str) : Str := (splitName name).2

/-! ### Config constants (`config.py`) -/

/-- `INSTRUMENTS` from `config.py`. -/
def INSTRUMENTS : List Str :=
  [strL "bagpipes", strL "seconds", strL "bass", strL "snare", strL "tenor"]

/-- `PART_LABELS` from `config.py`. -/
def PART_LABELS : List Str := [strL "phrase", strL "line", strL "part"]

/-! ### Naming utilities (`discovery.py`) -/

/-- `_should_exclude_dir`: names starting with `#` or `.`, or equal to
`Tune Resources`. -/
def shouldExcludeDir (name : Str) : Bool :=
  (strL "#").isPrefixOf name || name = strL "Tune Resources"
    || (strL ".").isPrefixOf name

/-- `_get_part_label`: first of `phrase`, `line`, `part` contained
(case-insensitively) in the filename, else none. -/
def getPartLabel (filename : Str) : Option Str :=
  PART_LABELS.find? (fun lb => containsSub lb (lowerS filename))

/-- `_short_part_label`: substring of the original string starting right after
the first space-preceded keyword of `PART_LABELS` found in the lower-cased
input, stripped; the input itself if no keyword position is found. -/
def shortPartLabel (full : Str) : Str :=
  match PART_LABELS.findSome? (fun lb => findSub (' ' :: lb) (lowerS full)) with
  | some idx => stripWS (full.drop (idx + 1))
  | none => full

/-- The candidate instrument suffixes tried by `_stem_to_base_key`, in
source order: for each instrument, `_inst` then `␣inst`. -/
def instrumentSuffixes : List Str :=
  INSTRUMENTS.flatMap (fun inst => ['_' :: inst, ' ' :: inst])

/-- `_stem_to_base_key`: strip the first matching instrument suffix from a PDF
stem; WAV stems pass through unchanged. -/
def stemToBaseKey (stem : Str) (isPdf : Bool) : Str :=
  if !isPdf then stem
  else
    match instrumentSuffixes.find? (fun suf => endsWith (lowerS stem) suf) with
    | some suf => stem.take (stem.length - suf.length)
    | none => stem

/-- One step of `_assign_part_to_tune`'s loop tracking
`(best_tune, best_len)`. -/
def bestTuneAcc (part_id : Str) (acc : Option Str × Nat) (t : Str) :
    Option Str × Nat :=
  if t.isPrefixOf part_id ∧ t.length > acc.2 then (some t, t.length) else acc

/-- `_assign_part_to_tune`: longest tune-name prefix of the part id, with the
set folder as fallback.  Returns `(tune_id, tune_name)`. -/
def assignPartToTune (part_id : Str) (tune_names : List Str)
    (set_id set_folder_name : Str) : Str × Str :=
  if tune_names = [] then
    (set_id ++ '|' :: set_folder_name, set_folder_name)
  else
    match (tune_names.foldl (bestTuneAcc part_id) ((none : Option Str), 0)).1 with
    | some t => (set_id ++ '|' :: t, t)
    | none => (set_id ++ '|' :: set_folder_name, set_folder_name)

/-! ### Folder-name patterns (`re` matchers) -/

/-- Case-insensitive literal prefix matcher; returns the rest of the input. -/
def stripPrefixCI : Str → Str → Option Str
  | [], l => some l
  | _, [] => none
  | p :: ps, c :: cs => if c.toLower = p then stripPrefixCI ps cs else none

/-- After at least one `\s` has been consumed: can `\s*.+`-style tail of
`\s+.+` still match?  `.` matches any char except newline. -/
def anyAfterSpaces : Str → Bool
  | [] => false
  | c :: rest => c ≠ '\n' || (isSpaceChar c && anyAfterSpaces rest)

/-- Matcher for the regex fragment `\s+.+` (with backtracking). -/
def spacesThenAny : Str → Bool
  | [] => false
  | c :: rest => isSpaceChar c && anyAfterSpaces rest

/-- `re.match(r"Section\s+\d+\s+-", name, re.IGNORECASE)`. -/
def sectionPat (name : Str) : Bool :=
  match stripPrefixCI (strL "section") name with
  | none => false
  | some l1 =>
    let w1 := l1.takeWhile isSpaceChar
    let l2 := l1.dropWhile isSpaceChar
    let d := l2.takeWhile isDigitChar
    let l3 := l2.dropWhile isDigitChar
    let w2 := l3.takeWhile isSpaceChar
    let l4 := l3.dropWhile isSpaceChar
    !w1.isEmpty && !d.isEmpty && !w2.isEmpty &&
      (match l4 with
       | '-' :: _ => true
       | _ => false)

/-- `re.match(r"Set\s+\d+[a-z]?\s+-\s+.+", base, re.IGNORECASE)`. -/
def setPat (base : Str) : Bool :=
  match stripPrefixCI (strL "set") base with
  | none => false
  | some l1 =>
    let w1 := l1.takeWhile isSpaceChar
    let l2 := l1.dropWhile isSpaceChar
    let d := l2.takeWhile isDigitChar
    let l3 := l2.dropWhile isDigitChar
    let l3' := match l3 with
      | c :: rest => if isAsciiLetter c then rest else l3
      | [] => l3
    let w2 := l3'.takeWhile isSpaceChar
    let l4 := l3'.dropWhile isSpaceChar
    !w1.isEmpty && !d.isEmpty && !w2.isEmpty &&
      (match l4 with
       | '-' :: rest => spacesThenAny rest
       | _ => false)

/-- `_infer_tunes_from_set_folder`: stems of PDF/WAV files without an
instrument `_inst` suffix matching the `Set NN(a) - Title` pattern,
deduplicated and sorted (Python `sorted` over a `set`). -/
def tuneCandidate (name : Str) : Option Str :=
  if suffixOf name ≠ [] ∧ (lowerS (suffixOf name) = strL ".pdf"
      ∨ lowerS (suffixOf name) = strL ".wav") then
    let base := stemOf name
    if INSTRUMENTS.any (fun inst => endsWith (lowerS base) ('_' :: inst)) then
      none
    else if setPat base then some base else none
  else none

/-- Boolean lexicographic strict comparison on code points (Python `<`). -/
def listLt : Str → Str → Bool
  | [], [] => false
  | [], _ :: _ => true
  | _ :: _, [] => false
  | a :: as, b :: bs => if a = b then listLt as bs else decide (a.toNat < b.toNat)

/-- Boolean lexicographic `≤` on code points (Python `<=`). -/
def listLe (a b : Str) : Bool := !listLt b a

/-- Ascending sort of a list of strings (used for Python `sorted` and as the
canonical enumeration of a Python `set` of strings). -/
def sortStrs (l : List Str) : List Str :=
  List.insertionSort (fun a b => listLe a b = true) l

def inferTunesFromSetFolder (files : List Str) : List Str :=
  sortStrs (files.filterMap tuneCandidate).dedup

/-! ### Practice status items (`data_model.py`) -/

/-- A persisted practice-status record (`create_item` of `data_model.py`).
JSON fields that may be absent or `null` are `Option`-valued. -/
structure PracticeItem where
  itemType : Option Str
  streak : Option Int
  score : Option ℚ
  last_practiced : Option Str
  last_score_updated : Option Str
  missing : Option Bool
deriving DecidableEq, Repr

/-- `create_item` of `data_model.py`. -/
def createItem (itemType : Str) (streak : Int) (score : ℚ)
    (last_practiced last_score_updated : Option Str) (missing : Bool) :
    PracticeItem :=
  ⟨some itemType, some streak, some score, last_practiced,
    last_score_updated, some missing⟩

/-- The in-memory `items` dict: insertion-ordered association list with
unique keys maintained by `dictSet`. -/
abbrev Items := List (Str × PracticeItem)

/-- Python dict lookup (`items.get(k)`): first matching key. -/
def lookupItem : Items → Str → Option PracticeItem
  | [], _ => none
  | (k0, v0) :: rest, k => if k0 = k then some v0 else lookupItem rest k

/-- Python `k in items`. -/
def hasKey (items : Items) (k : Str) : Bool := (lookupItem items k).isSome

/-- Python dict assignment `items[k] = v`: overwrite in place, else append. -/
def dictSet : Items → Str → PracticeItem → Items
  | [], k, v => [(k, v)]
  | (k0, v0) :: rest, k, v =>
    if k0 = k then (k, v) :: rest else (k0, v0) :: dictSet rest k v

/-! ### Part pairing (`_discover_parts`) -/

/-- A discovered part record (dict built by `_discover_parts`, with
`part_full_id`/`tune_id`/`tune_name` filled in later by `discover`). -/
structure PartRecord where
  part_id : Str
  short_label : Str
  label : Str
  pdf_path : Str
  wav_path : Str
  part_full_id : Str
  tune_id : Str
  tune_name : Str
deriving DecidableEq, Repr

/-- First pass of `_discover_parts`: build `pdfs_by_key` and `wavs_by_key`.
Files without a `phrase`/`line`/`part` keyword in their name are skipped;
keys collapse with last-wins on values. -/
def pdfWavStep (acc : List (Str × Str) × List (Str × Str)) (f : Str) :
    List (Str × Str) × List (Str × Str) :=
  if getPartLabel f = none then acc
  else
    let stem := stemOf f
    if endsWith (lowerS f) (strL ".pdf") then
      (assocSet acc.1 (stemToBaseKey stem true) f, acc.2)
    else if endsWith (lowerS f) (strL ".wav") then
      (acc.1, assocSet acc.2 (stemToBaseKey stem false) f)
    else acc
where
  /-- dict assignment for the string-valued path dicts. -/
  assocSet : List (Str × Str) → Str → Str → List (Str × Str)
    | [], k, v => [(k, v)]
    | (k0, v0) :: rest, k, v =>
      if k0 = k then (k, v) :: rest else (k0, v0) :: assocSet rest k v

def pdfWavDicts (files : List Str) : List (Str × Str) × List (Str × Str) :=
  files.foldl pdfWavStep ([], [])

/-- dict lookup for the path dicts. -/
def assocGet : List (Str × Str) → Str → Option Str
  | [], _ => none
  | (k0, v0) :: rest, k => if k0 = k then some v0 else assocGet rest k

/-- The iteration of `set(pdfs_by_key.keys()) | set(wavs_by_key.keys())`.
Python's set order is unspecified (hash-based); the model enumerates the key
set canonically in ascending order (a function of the key set alone). -/
def keysOfUnion (pdfs wavs : List (Str × Str)) : List Str :=
  sortStrs ((pdfs.map Prod.fst ++ wavs.map Prod.fst).dedup)

/-- Keys retained with both a PDF and a WAV, with the chosen files. -/
def acceptedTriples (files : List Str) : List (Str × Str × Str) :=
  let d := pdfWavDicts files
  (keysOfUnion d.1 d.2).filterMap (fun k =>
    match assocGet d.1 k, assocGet d.2 k with
    | some p, some w => some (k, p, w)
    | _, _ => none)

/-- `streak_for` inside `_discover_parts`:
`items.get(full_id, {}).get("streak", 0)`. -/
def streakFor (set_id : Str) (items : Items) (part_stem : Str) : Int :=
  match lookupItem items (set_id ++ strL "|Parts|" ++ part_stem) with
  | none => 0
  | some rec => rec.streak.getD 0

/-- The `by_label` bucket for one label. -/
def bucketFor (lb : Str) (files : List Str) : List (Str × Str × Str) :=
  (acceptedTriples files).filter (fun t => getPartLabel t.1 = some lb)

def mkPartRec (lb : Str) (t : Str × Str × Str) : PartRecord :=
  { part_id := t.1
    short_label := shortPartLabel t.1
    label := lb
    pdf_path := t.2.1
    wav_path := t.2.2
    part_full_id := []
    tune_id := []
    tune_name := [] }

/-- `_discover_parts`: label buckets in `PART_LABELS` order, each sorted
ascending by current streak (stable). -/
def discoverParts (files : List Str) (set_id : Str) (items : Items) :
    List PartRecord :=
  PART_LABELS.flatMap (fun lb =>
    (List.insertionSort
        (fun a b : Str × Str × Str =>
          streakFor set_id items a.1 ≤ streakFor set_id items b.1)
        (bucketFor lb files)).map (mkPartRec lb))

/-! ### Set/tune discovery (`discover`) -/

/-- A tune reference (`{tune_name, tune_id}` dict). -/
structure TuneRef where
  tune_name : Str
  tune_id : Str
deriving DecidableEq, Repr

/-- One set dict in the `discover` result. (`set_path` is omitted: it is the
path object formed from the section and set folder names.) -/
structure SetRecord where
  section_name : Str
  set_folder_name : Str
  set_id : Str
  tunes : List TuneRef
  parts : List PartRecord
deriving DecidableEq, Repr

/-- A set folder on disk: its immediate files and, when a `Parts` subfolder
exists, the files inside it. -/
structure SetDir where
  name : Str
  files : List Str
  partsFiles : Option (List Str)
deriving DecidableEq, Repr

/-- A directory immediately under the library root with its set subfolders
(in filesystem enumeration order). -/
structure SectionDir where
  name : Str
  setDirs : List SetDir
deriving DecidableEq, Repr

/-- One tune entry of `otpd_music_book_structure.json` (the string
`t.get("tune_name", "")`). -/
abbrev SMTuneName := Str

/-- One set entry of the structure map. -/
structure SMSet where
  folder_name : Str
  tunes : List SMTuneName
deriving DecidableEq, Repr

/-- One section entry of the structure map. -/
structure SMSection where
  section_name : Str
  sets : List SMSet
deriving DecidableEq, Repr

/-- Tunes taken from the structure map for one set: the first section entry
with a matching name is consulted, within it the first set entry with a
matching folder name; empty tune names are dropped (`if tune_name:`). -/
def smapTunesFor (smap : Option (List SMSection)) (section_name set_id
    set_folder_name : Str) : List TuneRef :=
  match smap with
  | none => []
  | some m =>
    match m.find? (fun sec => sec.section_name = section_name) with
    | none => []
    | some sec =>
      match sec.sets.find? (fun s => s.folder_name = set_folder_name) with
      | none => []
      | some s =>
        (s.tunes.filter (fun tn => tn ≠ [])).map
          (fun tn => ⟨tn, set_id ++ '|' :: tn⟩)

/-- The body of `discover`'s per-set loop: resolve tunes (structure map,
then inference, then the synthetic single-tune fallback), then parts. -/
def mkSetRecord (section_name : Str) (sd : SetDir)
    (smap : Option (List SMSection)) (items : Items) : SetRecord :=
  let set_id := section_name ++ '|' :: sd.name
  let tunesA := smapTunesFor smap section_name set_id sd.name
  let tunesB :=
    if tunesA = [] then
      (inferTunesFromSetFolder sd.files).map (fun tn => ⟨tn, set_id ++ '|' :: tn⟩)
    else tunesA
  let tunes : List TuneRef :=
    if tunesB = [] then [⟨sd.name, set_id ++ '|' :: sd.name⟩] else tunesB
  let parts :=
    match sd.partsFiles with
    | none => []
    | some pf =>
      (discoverParts pf set_id items).map (fun p =>
        let fid := set_id ++ strL "|Parts|" ++ p.part_id
        let asg := assignPartToTune p.part_id (tunes.map TuneRef.tune_name)
          set_id sd.name
        { p with part_full_id := fid, tune_id := asg.1, tune_name := asg.2 })
  { section_name := section_name
    set_folder_name := sd.name
    set_id := set_id
    tunes := tunes
    parts := parts }

/-- Sort key order of the final `result.sort`: ascending
`(section_name, set_folder_name)` (Python tuple comparison). -/
def setRecLe (a b : SetRecord) : Prop :=
  listLt a.section_name b.section_name = true
    ∨ (a.section_name = b.section_name
        ∧ listLe a.set_folder_name b.set_folder_name = true)

instance : DecidableRel setRecLe := fun a b => by
  unfold setRecLe; infer_instance

/-- `discover`: walk sections (name pattern `Section N -`, exclusions), walk
their subdirectories (only hidden names excluded), build set records, sort
by `(section_name, set_folder_name)`. -/
def discover (lib : List SectionDir) (smap : Option (List SMSection))
    (items : Items) : List SetRecord :=
  let raw :=
    (lib.filter (fun sec =>
      !shouldExcludeDir sec.name && sectionPat sec.name)).flatMap
      (fun sec =>
        (sec.setDirs.filter (fun sd => !(strL ".").isPrefixOf sd.name)).map
          (fun sd => mkSetRecord sec.name sd smap items))
  List.insertionSort setRecLe raw

/-! ### Status merge (`MainWindow._refresh_discovery`) -/

/-- The default record inserted for a newly discovered tune:
`set_item(data, tid, "tune", 0, 0.0)`. -/
def defaultTuneItem : PracticeItem := createItem (strL "tune") 0 0 none none false

/-- The default record inserted for a newly discovered part. -/
def defaultPartItem : PracticeItem := createItem (strL "part") 0 0 none none false

/-- The tune loop of `_refresh_discovery`. -/
def mergeTunes : List TuneRef → Items → Items
  | [], items => items
  | t :: rest, items =>
    mergeTunes rest
      (if hasKey items t.tune_id then items
       else dictSet items t.tune_id defaultTuneItem)

/-- The key used for a part by the merge:
`p.get("part_full_id") or f"{set_id}|Parts|{p['part_id']}"`. -/
def mergePartKey (set_id : Str) (p : PartRecord) : Str :=
  if p.part_full_id = [] then set_id ++ strL "|Parts|" ++ p.part_id
  else p.part_full_id

/-- The part loop of `_refresh_discovery`. -/
def mergeParts (set_id : Str) : List PartRecord → Items → Items
  | [], items => items
  | p :: rest, items =>
    mergeParts set_id rest
      (if hasKey items (mergePartKey set_id p) then items
       else dictSet items (mergePartKey set_id p) defaultPartItem)

/-- The merge step of `_refresh_discovery`: add missing tune and part items;
sets get no practice-tracking entry. -/
def mergeStatus : List SetRecord → Items → Items
  | [], items => items
  | r :: rest, items =>
    mergeStatus rest (mergeParts r.set_id r.parts (mergeTunes r.tunes items))

/-- All tune ids appearing across a discovery result. -/
def tuneIds (recs : List SetRecord) : List Str :=
  recs.flatMap (fun r => r.tunes.map TuneRef.tune_id)

/-- All part keys the merge would use across a discovery result. -/
def partIds (recs : List SetRecord) : List Str :=
  recs.flatMap (fun r => r.parts.map (mergePartKey r.set_id))

/-! ### Score decay (`decay.py`) -/

/-- `round(x, 1)` modelled as exact rounding to one decimal. -/
def round1 (q : ℚ) : ℚ := (round (10 * q) : ℤ) / 10

/-- The per-record body of `apply_decay`'s loop.  `parse` models
`_parse_iso` (epoch seconds; `none` for a raised exception), `nowSec` is
`now` in epoch seconds and `nowStr` its `strftime` rendering. -/
def decayRec (parse : Str → Option ℚ) (nowSec : ℚ) (nowStr : Str)
    (rate : ℚ) (rec : PracticeItem) : PracticeItem :=
  if rec.itemType = some (strL "part") ∨ rec.itemType = some (strL "set") then
    rec
  else
    match rec.last_score_updated with
    | none => rec
    | some s =>
      if s = [] then rec
      else
        match parse s with
        | none => rec
        | some lastSec =>
          let days := max 0 ((nowSec - lastSec) / 86400)
          if days ≤ 0 then rec
          else
            { rec with
              score := some (round1 (max 0 (rec.score.getD 0 - rate * days)))
              last_score_updated := some nowStr }

/-- `apply_decay`: decay every stored record in place. -/
def applyDecay (parse : Str → Option ℚ) (nowSec : ℚ) (nowStr : Str)
    (rate : ℚ) (items : Items) : Items :=
  items.map (fun kv => (kv.1, decayRec parse nowSec nowStr rate kv.2))

/-! ## Lemmas about the status merge -/

theorem lookupItem_dictSet (its : Items) (k k' : Str) (v : PracticeItem) :
    lookupItem (dictSet its k v) k' = if k = k' then some v else lookupItem its k' := by
  induction its with
  | nil => simp [dictSet, lookupItem]
  | cons kv rest ih =>
    obtain ⟨k0, v0⟩ := kv
    by_cases h0 : k0 = k
    · subst h0
      by_cases h1 : k0 = k'
      · subst h1; simp [dictSet, lookupItem]
      · simp [dictSet, lookupItem, h1]
    · by_cases h1 : k0 = k'
      · subst h1
        have hne : ¬ k = k0 := fun h => h0 h.symm
        simp [dictSet, lookupItem, h0, hne]
      · simp [dictSet, lookupItem, h0, h1, ih]

theorem mergeTunes_preserves (ts : List TuneRef) (its : Items) (k : Str)
    (h : hasKey its k = true) :
    lookupItem (mergeTunes ts its) k = lookupItem its k := by
  induction ts generalizing its with
  | nil => rfl
  | cons t rest ih =>
    show lookupItem (mergeTunes rest _) k = _
    by_cases hk : hasKey its t.tune_id
    · rw [if_pos hk]; exact ih its h
    · rw [if_neg hk]
      have hne : t.tune_id ≠ k := by
        intro he; rw [he] at hk; exact hk h
      have hpres : lookupItem (dictSet its t.tune_id defaultTuneItem) k
          = lookupItem its k := by
        rw [lookupItem_dictSet, if_neg hne]
      have hk2 : hasKey (dictSet its t.tune_id defaultTuneItem) k = true := by
        simpa [hasKey, hpres] using h
      rw [ih _ hk2, hpres]

theorem mergeTunes_frame (ts : List TuneRef) (its : Items) (k : Str)
    (h : k ∉ ts.map TuneRef.tune_id) :
    lookupItem (mergeTunes ts its) k = lookupItem its k := by
  induction ts generalizing its with
  | nil => rfl
  | cons t rest ih =>
    simp only [List.map_cons, List.mem_cons, not_or] at h
    show lookupItem (mergeTunes rest _) k = _
    by_cases hk : hasKey its t.tune_id
    · rw [if_pos hk]; exact ih its h.2
    · rw [if_neg hk]
      have hne : t.tune_id ≠ k := fun he => h.1 he.symm
      rw [ih _ h.2, lookupItem_dictSet, if_neg hne]

theorem mergeTunes_inserts (ts : List TuneRef) (its : Items) (k : Str)
    (habs : hasKey its k = false) (hmem : k ∈ ts.map TuneRef.tune_id) :
    lookupItem (mergeTunes ts its) k = some defaultTuneItem := by
  induction ts generalizing its with
  | nil => simp at hmem
  | cons t rest ih =>
    simp only [List.map_cons, List.mem_cons] at hmem
    show lookupItem (mergeTunes rest _) k = _
    by_cases he : t.tune_id = k
    · subst he
      rw [if_neg (by simp [habs])]
      have hv : lookupItem (dictSet its t.tune_id defaultTuneItem) t.tune_id
          = some defaultTuneItem := by
        rw [lookupItem_dictSet, if_pos rfl]
      have hk2 : hasKey (dictSet its t.tune_id defaultTuneItem) t.tune_id = true := by
        simp [hasKey, hv]
      rw [mergeTunes_preserves rest _ _ hk2, hv]
    · have hmem' : k ∈ rest.map TuneRef.tune_id := by
        rcases hmem with h1 | h1
        · exact absurd h1.symm he
        · exact h1
      by_cases hk : hasKey its t.tune_id
      · rw [if_pos hk]; exact ih its habs hmem'
      · rw [if_neg hk]
        have habs2 : hasKey (dictSet its t.tune_id defaultTuneItem) k = false := by
          simp only [hasKey, lookupItem_dictSet, if_neg he]
          simpa [hasKey] using habs
        exact ih _ habs2 hmem'

theorem mergeTunes_noop (ts : List TuneRef) (its : Items)
    (h : ∀ t ∈ ts, hasKey its t.tune_id = true) :
    mergeTunes ts its = its := by
  induction ts with
  | nil => rfl
  | cons t rest ih =>
    show mergeTunes rest _ = _
    rw [if_pos (h t (by simp))]
    exact ih (fun u hu => h u (by simp [hu]))

theorem mergeParts_preserves (sid : Str) (ps : List PartRecord) (its : Items)
    (k : Str) (h : hasKey its k = true) :
    lookupItem (mergeParts sid ps its) k = lookupItem its k := by
  induction ps generalizing its with
  | nil => rfl
  | cons p rest ih =>
    show lookupItem (mergeParts sid rest _) k = _
    by_cases hk : hasKey its (mergePartKey sid p)
    · rw [if_pos hk]; exact ih its h
    · rw [if_neg hk]
      have hne : mergePartKey sid p ≠ k := by
        intro he; rw [he] at hk; exact hk h
      have hpres : lookupItem (dictSet its (mergePartKey sid p) defaultPartItem) k
          = lookupItem its k := by
        rw [lookupItem_dictSet, if_neg hne]
      have hk2 : hasKey (dictSet its (mergePartKey sid p) defaultPartItem) k = true := by
        simpa [hasKey, hpres] using h
      rw [ih _ hk2, hpres]

theorem mergeParts_frame (sid : Str) (ps : List PartRecord) (its : Items)
    (k : Str) (h : k ∉ ps.map (mergePartKey sid)) :
    lookupItem (mergeParts sid ps its) k = lookupItem its k := by
  induction ps generalizing its with
  | nil => rfl
  | cons p rest ih =>
    simp only [List.map_cons, List.mem_cons, not_or] at h
    show lookupItem (mergeParts sid rest _) k = _
    by_cases hk : hasKey its (mergePartKey sid p)
    · rw [if_pos hk]; exact ih its h.2
    · rw [if_neg hk]
      have hne : mergePartKey sid p ≠ k := fun he => h.1 he.symm
      rw [ih _ h.2, lookupItem_dictSet, if_neg hne]

theorem mergeParts_inserts (sid : Str) (ps : List PartRecord) (its : Items)
    (k : Str) (habs : hasKey its k = false)
    (hmem : k ∈ ps.map (mergePartKey sid)) :
    lookupItem (mergeParts sid ps its) k = some defaultPartItem := by
  induction ps generalizing its with
  | nil => simp at hmem
  | cons p rest ih =>
    simp only [List.map_cons, List.mem_cons] at hmem
    show lookupItem (mergeParts sid rest _) k = _
    by_cases he : mergePartKey sid p = k
    · subst he
      rw [if_neg (by simp [habs])]
      have hv : lookupItem (dictSet its (mergePartKey sid p) defaultPartItem)
          (mergePartKey sid p) = some defaultPartItem := by
        rw [lookupItem_dictSet, if_pos rfl]
      have hk2 : hasKey (dictSet its (mergePartKey sid p) defaultPartItem)
          (mergePartKey sid p) = true := by
        simp [hasKey, hv]
      rw [mergeParts_preserves sid rest _ _ hk2, hv]
    · have hmem' : k ∈ rest.map (mergePartKey sid) := by
        rcases hmem with h1 | h1
        · exact absurd h1.symm he
        · exact h1
      by_cases hk : hasKey its (mergePartKey sid p)
      · rw [if_pos hk]; exact ih its habs hmem'
      · rw [if_neg hk]
        have habs2 : hasKey (dictSet its (mergePartKey sid p) defaultPartItem) k
            = false := by
          simp only [hasKey, lookupItem_dictSet, if_neg he]
          simpa [hasKey] using habs
        exact ih _ habs2 hmem'

theorem mergeParts_noop (sid : Str) (ps : List PartRecord) (its : Items)
    (h : ∀ p ∈ ps, hasKey its (mergePartKey sid p) = true) :
    mergeParts sid ps its = its := by
  induction ps with
  | nil => rfl
  | cons p rest ih =>
    show mergeParts sid rest _ = _
    rw [if_pos (h p (by simp))]
    exact ih (fun q hq => h q (by simp [hq]))

theorem mergeStatus_preserves (recs : List SetRecord) (its : Items) (k : Str)
    (h : hasKey its k = true) :
    lookupItem (mergeStatus recs its) k = lookupItem its k := by
  induction recs generalizing its with
  | nil => rfl
  | cons r rest ih =>
    show lookupItem (mergeStatus rest _) k = _
    have h1 := mergeTunes_preserves r.tunes its k h
    have hk1 : hasKey (mergeTunes r.tunes its) k = true := by
      simpa [hasKey, h1] using h
    have h2 := mergeParts_preserves r.set_id r.parts _ k hk1
    have hk2 : hasKey (mergeParts r.set_id r.parts (mergeTunes r.tunes its)) k
        = true := by
      simpa [hasKey, h2] using hk1
    rw [ih _ hk2, h2, h1]

theorem mergeStatus_frame (recs : List SetRecord) (its : Items) (k : Str)
    (ht : k ∉ tuneIds recs) (hp : k ∉ partIds recs) :
    lookupItem (mergeStatus recs its) k = lookupItem its k := by
  induction recs generalizing its with
  | nil => rfl
  | cons r rest ih =>
    have hts : tuneIds (r :: rest) = r.tunes.map TuneRef.tune_id ++ tuneIds rest := by
      simp [tuneIds]
    have hps : partIds (r :: rest)
        = r.parts.map (mergePartKey r.set_id) ++ partIds rest := by
      simp [partIds]
    rw [hts, List.mem_append, not_or] at ht
    rw [hps, List.mem_append, not_or] at hp
    show lookupItem (mergeStatus rest _) k = _
    rw [ih _ ht.2 hp.2, mergeParts_frame _ _ _ _ hp.1, mergeTunes_frame _ _ _ ht.1]

theorem mergeStatus_hasKey_mono (recs : List SetRecord) (its : Items) (k : Str)
    (h : hasKey its k = true) : hasKey (mergeStatus recs its) k = true := by
  simpa [hasKey, mergeStatus_preserves recs its k h] using h

theorem mergeStatus_tune_insert (recs : List SetRecord) (its : Items) (k : Str)
    (habs : hasKey its k = false) (hmem : k ∈ tuneIds recs)
    (hnp : k ∉ partIds recs) :
    lookupItem (mergeStatus recs its) k = some defaultTuneItem := by
  induction recs generalizing its with
  | nil => simp [tuneIds] at hmem
  | cons r rest ih =>
    have hts : tuneIds (r :: rest) = r.tunes.map TuneRef.tune_id ++ tuneIds rest := by
      simp [tuneIds]
    have hps : partIds (r :: rest)
        = r.parts.map (mergePartKey r.set_id) ++ partIds rest := by
      simp [partIds]
    rw [hts, List.mem_append] at hmem
    rw [hps, List.mem_append, not_or] at hnp
    show lookupItem (mergeStatus rest _) k = _
    rcases hmem with hin | hin
    · have h1 : lookupItem (mergeTunes r.tunes its) k = some defaultTuneItem :=
        mergeTunes_inserts r.tunes its k habs hin
      have h2 : lookupItem (mergeParts r.set_id r.parts (mergeTunes r.tunes its)) k
          = some defaultTuneItem := by
        rw [mergeParts_frame _ _ _ _ hnp.1, h1]
      have hk2 : hasKey (mergeParts r.set_id r.parts (mergeTunes r.tunes its)) k
          = true := by simp [hasKey, h2]
      rw [mergeStatus_preserves rest _ _ hk2, h2]
    · by_cases hkt : k ∈ r.tunes.map TuneRef.tune_id
      · -- k was already inserted by this record's tune loop
        have h1 : lookupItem (mergeParts r.set_id r.parts (mergeTunes r.tunes its)) k
            = some defaultTuneItem := by
          rw [mergeParts_frame _ _ _ _ hnp.1, mergeTunes_inserts _ _ _ habs hkt]
        have hk2 : hasKey (mergeParts r.set_id r.parts (mergeTunes r.tunes its)) k
            = true := by simp [hasKey, h1]
        rw [mergeStatus_preserves rest _ _ hk2, h1]
      · -- this record leaves k untouched; recurse
        have h1 : lookupItem (mergeParts r.set_id r.parts (mergeTunes r.tunes its)) k
            = lookupItem its k := by
          rw [mergeParts_frame _ _ _ _ hnp.1, mergeTunes_frame _ _ _ hkt]
        have habs2 : hasKey (mergeParts r.set_id r.parts (mergeTunes r.tunes its)) k
            = false := by simpa [hasKey, h1] using habs
        exact ih _ habs2 hin hnp.2

theorem mergeStatus_part_insert (recs : List SetRecord) (its : Items) (k : Str)
    (habs : hasKey its k = false) (hmem : k ∈ partIds recs)
    (hnt : k ∉ tuneIds recs) :
    lookupItem (mergeStatus recs its) k = some defaultPartItem := by
  induction recs generalizing its with
  | nil => simp [partIds] at hmem
  | cons r rest ih =>
    have hts : tuneIds (r :: rest) = r.tunes.map TuneRef.tune_id ++ tuneIds rest := by
      simp [tuneIds]
    have hps : partIds (r :: rest)
        = r.parts.map (mergePartKey r.set_id) ++ partIds rest := by
      simp [partIds]
    rw [hps, List.mem_append] at hmem
    rw [hts, List.mem_append, not_or] at hnt
    show lookupItem (mergeStatus rest _) k = _
    rcases hmem with hin | hin
    · have h0 : lookupItem (mergeTunes r.tunes its) k = lookupItem its k :=
        mergeTunes_frame _ _ _ hnt.1
      have habs1 : hasKey (mergeTunes r.tunes its) k = false := by
        simpa [hasKey, h0] using habs
      have h1 : lookupItem (mergeParts r.set_id r.parts (mergeTunes r.tunes its)) k
          = some defaultPartItem := mergeParts_inserts _ _ _ _ habs1 hin
      have hk2 : hasKey (mergeParts r.set_id r.parts (mergeTunes r.tunes its)) k
          = true := by simp [hasKey, h1]
      rw [mergeStatus_preserves rest _ _ hk2, h1]
    · by_cases hkp : k ∈ r.parts.map (mergePartKey r.set_id)
      · have h0 : lookupItem (mergeTunes r.tunes its) k = lookupItem its k :=
          mergeTunes_frame _ _ _ hnt.1
        have habs1 : hasKey (mergeTunes r.tunes its) k = false := by
          simpa [hasKey, h0] using habs
        have h1 : lookupItem (mergeParts r.set_id r.parts (mergeTunes r.tunes its)) k
            = some defaultPartItem := mergeParts_inserts _ _ _ _ habs1 hkp
        have hk2 : hasKey (mergeParts r.set_id r.parts (mergeTunes r.tunes its)) k
            = true := by simp [hasKey, h1]
        rw [mergeStatus_preserves rest _ _ hk2, h1]
      · have h1 : lookupItem (mergeParts r.set_id r.parts (mergeTunes r.tunes its)) k
            = lookupItem its k := by
          rw [mergeParts_frame _ _ _ _ hkp, mergeTunes_frame _ _ _ hnt.1]
        have habs2 : hasKey (mergeParts r.set_id r.parts (mergeTunes r.tunes its)) k
            = false := by simpa [hasKey, h1] using habs
        exact ih _ habs2 hin hnt.2

theorem mergeTunes_changed (ts : List TuneRef) (its : Items) (k : Str)
    (h : lookupItem (mergeTunes ts its) k ≠ lookupItem its k) :
    lookupItem (mergeTunes ts its) k = some defaultTuneItem := by
  induction ts generalizing its with
  | nil => exact absurd rfl h
  | cons t rest ih =>
    revert h
    show lookupItem (mergeTunes rest _) k ≠ _ → lookupItem (mergeTunes rest _) k = _
    intro h
    by_cases hk : hasKey its t.tune_id
    · rw [if_pos hk] at h ⊢; exact ih its h
    · rw [if_neg hk] at h ⊢
      by_cases he : t.tune_id = k
      · subst he
        have hv : lookupItem (dictSet its t.tune_id defaultTuneItem) t.tune_id
            = some defaultTuneItem := by rw [lookupItem_dictSet, if_pos rfl]
        have hk2 : hasKey (dictSet its t.tune_id defaultTuneItem) t.tune_id = true := by
          simp [hasKey, hv]
        rw [mergeTunes_preserves rest _ _ hk2, hv]
      · have hsame : lookupItem (dictSet its t.tune_id defaultTuneItem) k
            = lookupItem its k := by rw [lookupItem_dictSet, if_neg he]
        rw [← hsame] at h
        exact ih _ h

theorem mergeParts_changed (sid : Str) (ps : List PartRecord) (its : Items)
    (k : Str) (h : lookupItem (mergeParts sid ps its) k ≠ lookupItem its k) :
    lookupItem (mergeParts sid ps its) k = some defaultPartItem := by
  induction ps generalizing its with
  | nil => exact absurd rfl h
  | cons p rest ih =>
    revert h
    show lookupItem (mergeParts sid rest _) k ≠ _ →
      lookupItem (mergeParts sid rest _) k = _
    intro h
    by_cases hk : hasKey its (mergePartKey sid p)
    · rw [if_pos hk] at h ⊢; exact ih its h
    · rw [if_neg hk] at h ⊢
      by_cases he : mergePartKey sid p = k
      · subst he
        have hv : lookupItem (dictSet its (mergePartKey sid p) defaultPartItem)
            (mergePartKey sid p) = some defaultPartItem := by
          rw [lookupItem_dictSet, if_pos rfl]
        have hk2 : hasKey (dictSet its (mergePartKey sid p) defaultPartItem)
            (mergePartKey sid p) = true := by simp [hasKey, hv]
        rw [mergeParts_preserves sid rest _ _ hk2, hv]
      · have hsame : lookupItem (dictSet its (mergePartKey sid p) defaultPartItem) k
            = lookupItem its k := by rw [lookupItem_dictSet, if_neg he]
        rw [← hsame] at h
        exact ih _ h

theorem mergeStatus_changed (recs : List SetRecord) (its : Items) (k : Str)
    (h : lookupItem (mergeStatus recs its) k ≠ lookupItem its k) :
    lookupItem (mergeStatus recs its) k = some defaultTuneItem
      ∨ lookupItem (mergeStatus recs its) k = some defaultPartItem := by
  induction recs generalizing its with
  | nil => exact absurd rfl h
  | cons r rest ih =>
    revert h
    show lookupItem (mergeStatus rest _) k ≠ _ →
      lookupItem (mergeStatus rest _) k = _ ∨ lookupItem (mergeStatus rest _) k = _
    intro h
    by_cases h2 : lookupItem
        (mergeStatus rest (mergeParts r.set_id r.parts (mergeTunes r.tunes its))) k
        = lookupItem (mergeParts r.set_id r.parts (mergeTunes r.tunes its)) k
    · rw [h2]
      by_cases h3 : lookupItem (mergeParts r.set_id r.parts (mergeTunes r.tunes its)) k
          = lookupItem (mergeTunes r.tunes its) k
      · rw [h3]
        left
        apply mergeTunes_changed
        intro h4
        rw [h2, h3, h4] at h
        exact h rfl
      · right
        exact mergeParts_changed _ _ _ _ h3
    · exact ih _ h2

theorem mergeTunes_hasKey_mono (ts : List TuneRef) (its : Items) (k : Str)
    (h : hasKey its k = true) : hasKey (mergeTunes ts its) k = true := by
  simpa [hasKey, mergeTunes_preserves ts its k h] using h

theorem mergeParts_hasKey_mono (sid : Str) (ps : List PartRecord) (its : Items)
    (k : Str) (h : hasKey its k = true) :
    hasKey (mergeParts sid ps its) k = true := by
  simpa [hasKey, mergeParts_preserves sid ps its k h] using h

theorem mergeTunes_all (ts : List TuneRef) (its : Items) (k : Str)
    (hmem : k ∈ ts.map TuneRef.tune_id) :
    hasKey (mergeTunes ts its) k = true := by
  by_cases hk : hasKey its k
  · exact mergeTunes_hasKey_mono ts its k hk
  · have := mergeTunes_inserts ts its k (by simpa using hk) hmem
    simp [hasKey, this]

theorem mergeParts_all (sid : Str) (ps : List PartRecord) (its : Items) (k : Str)
    (hmem : k ∈ ps.map (mergePartKey sid)) :
    hasKey (mergeParts sid ps its) k = true := by
  by_cases hk : hasKey its k
  · exact mergeParts_hasKey_mono sid ps its k hk
  · have := mergeParts_inserts sid ps its k (by simpa using hk) hmem
    simp [hasKey, this]

theorem mergeStatus_all (recs : List SetRecord) (its : Items) (k : Str)
    (hmem : k ∈ tuneIds recs ∨ k ∈ partIds recs) :
    hasKey (mergeStatus recs its) k = true := by
  induction recs generalizing its with
  | nil => simp [tuneIds, partIds] at hmem
  | cons r rest ih =>
    have hts : tuneIds (r :: rest) = r.tunes.map TuneRef.tune_id ++ tuneIds rest := by
      simp [tuneIds]
    have hps : partIds (r :: rest)
        = r.parts.map (mergePartKey r.set_id) ++ partIds rest := by
      simp [partIds]
    rw [hts, List.mem_append] at hmem
    rw [hps, List.mem_append] at hmem
    show hasKey (mergeStatus rest _) k = true
    rcases hmem with (hin | hin) | (hin | hin)
    · exact mergeStatus_hasKey_mono rest _ k
        (mergeParts_hasKey_mono _ _ _ _ (mergeTunes_all _ _ _ hin))
    · exact ih _ (Or.inl hin)
    · exact mergeStatus_hasKey_mono rest _ k (mergeParts_all _ _ _ _ hin)
    · exact ih _ (Or.inr hin)

theorem mergeStatus_noop (recs : List SetRecord) (its : Items)
    (h : ∀ k, k ∈ tuneIds recs ∨ k ∈ partIds recs → hasKey its k = true) :
    mergeStatus recs its = its := by
  induction recs with
  | nil => rfl
  | cons r rest ih =>
    have hts : tuneIds (r :: rest) = r.tunes.map TuneRef.tune_id ++ tuneIds rest := by
      simp [tuneIds]
    have hps : partIds (r :: rest)
        = r.parts.map (mergePartKey r.set_id) ++ partIds rest := by
      simp [partIds]
    show mergeStatus rest _ = _
    rw [mergeTunes_noop r.tunes its (fun t ht => h t.tune_id (Or.inl
        (by rw [hts]; exact List.mem_append_left _ (List.mem_map_of_mem _ ht)))),
      mergeParts_noop r.set_id r.parts its (fun p hp => h (mergePartKey r.set_id p)
        (Or.inr (by rw [hps]; exact List.mem_append_left _ (List.mem_map_of_mem _ hp))))]
    exact ih (fun k hk => h k (by
      rcases hk with hk | hk
      · exact Or.inl (by rw [hts]; exact List.mem_append_right _ hk)
      · exact Or.inr (by rw [hps]; exact List.mem_append_right _ hk)))

theorem mergeStatus_idem (recs : List SetRecord) (its : Items) :
    mergeStatus recs (mergeStatus recs its) = mergeStatus recs its :=
  mergeStatus_noop recs _ (fun k hk => mergeStatus_all recs its k hk)

/-! ## Claim C1 -/

/-- C1: the status merge is strictly additive.  For any key `k`: a key absent
from the mapping that occurs among the discovered tune ids (and not among the
part keys) is inserted as a fresh tune item with `streak = 0`, `score = 0.0`,
no timestamps and `missing = false`; symmetrically for part keys; any key
already present keeps its exact prior record; every record the merge changes
is one of those two default insertions (in particular the merge never writes
a `set`-typed entry); and every key present after the merge was either
present before or is a discovered tune id or part key — so no set-level entry
keyed by a bare `set_id` is created (unless that string coincides with a
tune id or part key). -/
theorem merge_is_strictly_additive (recs : List SetRecord) (items : Items)
    (k : Str) :
    (hasKey items k = false → k ∈ tuneIds recs → k ∉ partIds recs →
      lookupItem (mergeStatus recs items) k
        = some { itemType := some (strL "tune"), streak := some 0,
                 score := some 0, last_practiced := none,
                 last_score_updated := none, missing := some false })
    ∧ (hasKey items k = false → k ∈ partIds recs → k ∉ tuneIds recs →
      lookupItem (mergeStatus recs items) k
        = some { itemType := some (strL "part"), streak := some 0,
                 score := some 0, last_practiced := none,
                 last_score_updated := none, missing := some false })
    ∧ (hasKey items k = true →
      lookupItem (mergeStatus recs items) k = lookupItem items k)
    ∧ (lookupItem (mergeStatus recs items) k ≠ lookupItem items k →
      lookupItem (mergeStatus recs items) k = some defaultTuneItem
        ∨ lookupItem (mergeStatus recs items) k = some defaultPartItem)
    ∧ ((lookupItem (mergeStatus recs items) k).isSome = true →
      hasKey items k = true ∨ k ∈ tuneIds recs ∨ k ∈ partIds recs) := by
  refine ⟨?_, ?_, ?_, ?_, ?_⟩
  · intro habs hmem hnp
    exact mergeStatus_tune_insert recs items k habs hmem hnp
  · intro habs hmem hnt
    exact mergeStatus_part_insert recs items k habs hmem hnt
  · intro h
    exact mergeStatus_preserves recs items k h
  · intro h
    exact mergeStatus_changed recs items k h
  · intro h
    by_contra hc
    push_neg at hc
    obtain ⟨h1, h2, h3⟩ := hc
    rw [mergeStatus_frame recs items k h2 h3] at h
    simp only [hasKey, Bool.not_eq_true] at h1
    rw [h1] at h
    exact Bool.false_ne_true h

/-- Witness for C1 at a concrete input: one set with one tune and one part,
starting from a mapping that already holds an unrelated record. -/
theorem merge_is_strictly_additive_witness :
    lookupItem
        (mergeStatus
          [{ section_name := strL "Section 1 - A", set_folder_name := strL "F",
             set_id := strL "Section 1 - A|F",
             tunes := [⟨strL "T", strL "Section 1 - A|F|T"⟩],
             parts := [{ part_id := strL "line 1", short_label := strL "line 1",
                         label := strL "line",
                         pdf_path := strL "line 1_bass.pdf",
                         wav_path := strL "line 1.wav",
                         part_full_id := strL "Section 1 - A|F|Parts|line 1",
                         tune_id := strL "Section 1 - A|F|T",
                         tune_name := strL "T" }] }]
          [(strL "old", defaultTuneItem)])
        (strL "Section 1 - A|F|T")
      = some { itemType := some (strL "tune"), streak := some 0,
               score := some 0, last_practiced := none,
               last_score_updated := none, missing := some false } :=
  (merge_is_strictly_additive _ _ _).1 (by decide) (by decide) (by decide)

/-! ## Claim C2 -/

/-- C2: round-trip.  Discovery is a pure function of the filesystem state,
the structure map and the item mapping, so two runs against unchanged inputs
yield identical SetRecord lists; and merging the second (identical) discovery
result into the mapping produced by the first merge inserts nothing and
returns that mapping unchanged. -/
theorem discovery_roundtrip (lib : List SectionDir)
    (smap : Option (List SMSection)) (items : Items) :
    discover lib smap items = discover lib smap items
    ∧ mergeStatus (discover lib smap items)
        (mergeStatus (discover lib smap items) items)
      = mergeStatus (discover lib smap items) items :=
  ⟨rfl, mergeStatus_idem _ _⟩

/-! ## Lemmas about `_assign_part_to_tune` -/

theorem bestTune_foldl_spec (pid : Str) (names : List Str) :
    ∀ acc : Option Str × Nat,
    (∀ t, acc.1 = some t → t.isPrefixOf pid = true ∧ acc.2 = t.length) →
    ((∀ t, (names.foldl (bestTuneAcc pid) acc).1 = some t →
        t.isPrefixOf pid = true
        ∧ (names.foldl (bestTuneAcc pid) acc).2 = t.length
        ∧ (t ∈ names ∨ acc.1 = some t))
      ∧ (∀ u ∈ names, u.isPrefixOf pid = true →
        u.length ≤ (names.foldl (bestTuneAcc pid) acc).2)
      ∧ acc.2 ≤ (names.foldl (bestTuneAcc pid) acc).2
      ∧ ((names.foldl (bestTuneAcc pid) acc).1 = none →
        names.foldl (bestTuneAcc pid) acc = acc)) := by
  induction names with
  | nil =>
    intro acc h1
    refine ⟨?_, ?_, le_refl _, fun _ => rfl⟩
    · intro t ht
      exact ⟨(h1 t ht).1, (h1 t ht).2, Or.inr ht⟩
    · intro u hu
      simp at hu
  | cons n ns ih =>
    intro acc h1
    have hfold : (n :: ns).foldl (bestTuneAcc pid) acc
        = ns.foldl (bestTuneAcc pid) (bestTuneAcc pid acc n) := rfl
    by_cases hc : n.isPrefixOf pid = true ∧ n.length > acc.2
    · have hstep : bestTuneAcc pid acc n = (some n, n.length) := by
        unfold bestTuneAcc
        rw [if_pos hc]
      have h1' : ∀ t, (bestTuneAcc pid acc n).1 = some t →
          t.isPrefixOf pid = true ∧ (bestTuneAcc pid acc n).2 = t.length := by
        intro t ht
        rw [hstep] at ht ⊢
        simp only [Option.some_inj] at ht
        subst ht
        exact ⟨hc.1, rfl⟩
      obtain ⟨C1, C2, C3, C4⟩ := ih (bestTuneAcc pid acc n) h1'
      rw [hfold]
      refine ⟨?_, ?_, ?_, ?_⟩
      · intro t ht
        obtain ⟨hp, hl, hm⟩ := C1 t ht
        refine ⟨hp, hl, ?_⟩
        rcases hm with hm | hm
        · exact Or.inl (List.mem_cons_of_mem _ hm)
        · rw [hstep] at hm
          simp only [Option.some_inj] at hm
          exact Or.inl (hm ▸ List.mem_cons_self _ _)
      · intro u hu hup
        rcases List.mem_cons.mp hu with hue | hum
        · rw [hue]
          calc n.length = (bestTuneAcc pid acc n).2 := by rw [hstep]
            _ ≤ _ := C3
        · exact C2 u hum hup
      · calc acc.2 ≤ n.length := le_of_lt hc.2
          _ = (bestTuneAcc pid acc n).2 := by rw [hstep]
          _ ≤ _ := C3
      · intro hres
        have := C4 hres
        rw [this, hstep] at hres
        simp at hres
    · have hstep : bestTuneAcc pid acc n = acc := by
        unfold bestTuneAcc
        rw [if_neg hc]
      obtain ⟨C1, C2, C3, C4⟩ := ih (bestTuneAcc pid acc n) (by rw [hstep]; exact h1)
      rw [hfold]
      refine ⟨?_, ?_, ?_, ?_⟩
      · intro t ht
        obtain ⟨hp, hl, hm⟩ := C1 t ht
        refine ⟨hp, hl, ?_⟩
        rcases hm with hm | hm
        · exact Or.inl (List.mem_cons_of_mem _ hm)
        · rw [hstep] at hm
          exact Or.inr hm
      · intro u hu hup
        rcases List.mem_cons.mp hu with hue | hum
        · rw [hue] at hup ⊢
          have hle : n.length ≤ acc.2 := by
            by_contra hgt
            exact hc ⟨hup, Nat.lt_of_not_le hgt⟩
          calc n.length ≤ acc.2 := hle
            _ = (bestTuneAcc pid acc n).2 := by rw [hstep]
            _ ≤ _ := C3
        · exact C2 u hum hup
      · calc acc.2 = (bestTuneAcc pid acc n).2 := by rw [hstep]
          _ ≤ _ := C3
      · intro hres
        rw [C4 hres, hstep]

/-! ## Claim C3 -/

/-- C3 (amended): tune assignment by longest prefix.  If some nonempty tune
name is a prefix of the part's pairing key, the function returns
`(set_id ++ "|" ++ t, t)` for a tune name `t` that is a prefix of the key of
maximal length among all prefix candidates.  If no tune name is a prefix, or
the tune list is empty, it falls back to the set folder name.  In
particular, with tunes `["Set 01a - March", "Set 01b - Strathspey"]` and
part key `"Set 01b - Strathspey line 1"`, the assigned tune is
`"Set 01b - Strathspey"`.  (Empty-string tune names never match: see the
counterexample to the unrestricted claim.) -/
theorem assign_part_to_tune_longest_match (pid : Str) (names : List Str)
    (sid folder : Str) :
    ((∃ t0 ∈ names, t0 ≠ [] ∧ t0.isPrefixOf pid = true) →
      ∃ t, t ∈ names ∧ t.isPrefixOf pid = true
        ∧ assignPartToTune pid names sid folder = (sid ++ '|' :: t, t)
        ∧ ∀ u ∈ names, u.isPrefixOf pid = true → u.length ≤ t.length)
    ∧ ((∀ t ∈ names, t.isPrefixOf pid = false) →
      assignPartToTune pid names sid folder = (sid ++ '|' :: folder, folder))
    ∧ (names = [] →
      assignPartToTune pid names sid folder = (sid ++ '|' :: folder, folder))
    ∧ assignPartToTune (strL "Set 01b - Strathspey line 1")
        [strL "Set 01a - March", strL "Set 01b - Strathspey"]
        (strL "S1|Set01") (strL "Set 01 - Medley")
      = (strL "S1|Set01|Set 01b - Strathspey", strL "Set 01b - Strathspey") := by
  refine ⟨?_, ?_, ?_, by decide⟩
  · rintro ⟨t0, ht0m, ht0ne, ht0p⟩
    have hne : names ≠ [] := fun h => by simp [h] at ht0m
    obtain ⟨C1, C2, _, C4⟩ := bestTune_foldl_spec pid names ((none : Option Str), 0)
      (by intro t ht; simp at ht)
    have hpos : 0 < (names.foldl (bestTuneAcc pid) (none, 0)).2 := by
      have h0 : 0 < t0.length := List.length_pos.mpr ht0ne
      exact lt_of_lt_of_le h0 (C2 t0 ht0m ht0p)
    obtain ⟨t, ht⟩ : ∃ t, (names.foldl (bestTuneAcc pid) (none, 0)).1 = some t := by
      cases hcase : (names.foldl (bestTuneAcc pid) (none, 0)).1 with
      | none =>
        rw [C4 hcase] at hpos
        simp at hpos
      | some t => exact ⟨t, rfl⟩
    obtain ⟨hp, hl, hm⟩ := C1 t ht
    refine ⟨t, ?_, hp, ?_, ?_⟩
    · rcases hm with hm | hm
      · exact hm
      · simp at hm
    · unfold assignPartToTune
      rw [if_neg hne, ht]
    · intro u hu hup
      calc u.length ≤ (names.foldl (bestTuneAcc pid) (none, 0)).2 := C2 u hu hup
        _ = t.length := hl
  · intro hnone
    by_cases hne : names = []
    · unfold assignPartToTune
      rw [if_pos hne]
    · have hfix : names.foldl (bestTuneAcc pid) ((none : Option Str), 0)
          = ((none : Option Str), 0) := by
        have : ∀ (l : List Str), (∀ t ∈ l, t.isPrefixOf pid = false) →
            ∀ acc : Option Str × Nat, l.foldl (bestTuneAcc pid) acc = acc := by
          intro l
          induction l with
          | nil => intro _ acc; rfl
          | cons n ns ih =>
            intro hl acc
            have hstep : bestTuneAcc pid acc n = acc := by
              unfold bestTuneAcc
              rw [if_neg]
              intro hcon
              have hfalse := hl n (by simp)
              rw [hcon.1] at hfalse
              exact Bool.noConfusion hfalse
            show ns.foldl (bestTuneAcc pid) (bestTuneAcc pid acc n) = acc
            rw [hstep]
            exact ih (fun t ht => hl t (by simp [ht])) acc
        exact this names hnone _
      unfold assignPartToTune
      rw [if_neg hne, hfix]
  · intro hnil
    unfold assignPartToTune
    rw [if_pos hnil]

/-- Witness for C3 at concrete inputs, exercising the longest-prefix branch,
the no-match fallback and the empty-list fallback. -/
theorem assign_part_to_tune_longest_match_witness :
    (∃ t, t ∈ [strL "Set 01a - March", strL "Set 01b - Strathspey"]
      ∧ t.isPrefixOf (strL "Set 01b - Strathspey line 1") = true
      ∧ assignPartToTune (strL "Set 01b - Strathspey line 1")
          [strL "Set 01a - March", strL "Set 01b - Strathspey"]
          (strL "S") (strL "F") = (strL "S" ++ '|' :: t, t)
      ∧ ∀ u ∈ [strL "Set 01a - March", strL "Set 01b - Strathspey"],
          u.isPrefixOf (strL "Set 01b - Strathspey line 1") = true
          → u.length ≤ t.length)
    ∧ assignPartToTune (strL "Other line 1") [strL "Set 01a - March"]
        (strL "S") (strL "F") = (strL "S" ++ '|' :: strL "F", strL "F")
    ∧ assignPartToTune (strL "line 1") [] (strL "S") (strL "F")
      = (strL "S" ++ '|' :: strL "F", strL "F") :=
  ⟨(assign_part_to_tune_longest_match (strL "Set 01b - Strathspey line 1")
      [strL "Set 01a - March", strL "Set 01b - Strathspey"]
      (strL "S") (strL "F")).1
      ⟨strL "Set 01b - Strathspey", by decide, by decide, by decide⟩,
    (assign_part_to_tune_longest_match (strL "Other line 1")
      [strL "Set 01a - March"] (strL "S") (strL "F")).2.1 (by decide),
    (assign_part_to_tune_longest_match (strL "line 1") []
      (strL "S") (strL "F")).2.2.1 rfl⟩

/-- Counterexample to C3 as stated: the empty string is a tune name that is
a prefix of the part key `"x"` (and the longest such prefix among the
candidates `[""]`), yet `_assign_part_to_tune` returns the set-folder
fallback, not the tune id built from that prefix — because its loop only
accepts candidates of length strictly greater than the initial best of 0. -/
theorem assign_part_to_tune_empty_name_cex :
    (([] : Str).isPrefixOf (strL "x") = true)
    ∧ (∀ u ∈ [([] : Str)], u.isPrefixOf (strL "x") = true
        → u.length ≤ ([] : Str).length)
    ∧ assignPartToTune (strL "x") [([] : Str)] (strL "S") (strL "F")
      = (strL "S|F", strL "F")
    ∧ (strL "S|F", strL "F") ≠ (strL "S" ++ '|' :: ([] : Str), ([] : Str)) := by
  decide

/-! ## Claim C8 -/

theorem shortPartLabel_of_no_keyword (x : Str)
    (h : (PART_LABELS.findSome? fun lb => findSub (' ' :: lb) (lowerS x)) = none) :
    shortPartLabel x = x := by
  unfold shortPartLabel
  rw [h]

/-- C8 (amended): `_short_part_label` is idempotent on every input whose
output contains no space-preceded `phrase`/`line`/`part` keyword — the
second application then finds no keyword position and returns its input
unchanged.  On general inputs idempotence fails (see the counterexample):
the first application can expose a later keyword by cutting off the text in
front of an earlier one. -/
theorem short_part_label_conditional_idem (s : Str)
    (h : ∀ lb ∈ PART_LABELS,
      findSub (' ' :: lb) (lowerS (shortPartLabel s)) = none) :
    shortPartLabel (shortPartLabel s) = shortPartLabel s := by
  apply shortPartLabel_of_no_keyword
  have h1 := h (strL "phrase") (by simp [PART_LABELS])
  have h2 := h (strL "line") (by simp [PART_LABELS])
  have h3 := h (strL "part") (by simp [PART_LABELS])
  simp [PART_LABELS, List.findSome?_cons, h1, h2, h3]

/-- Witness for C8 (amended) at a concrete input whose output holds no
further space-preceded keyword. -/
theorem short_part_label_conditional_idem_witness :
    shortPartLabel (shortPartLabel (strL "Tune A line 1"))
      = shortPartLabel (strL "Tune A line 1") :=
  short_part_label_conditional_idem (strL "Tune A line 1") (by decide)

/-- Counterexample to C8 as stated: `_short_part_label` is not idempotent.
On `"x phrase line"` it returns `"phrase line"` (cutting at `" phrase"`);
applied again it finds `" line"` and returns `"line"`. -/
theorem short_part_label_not_idempotent :
    shortPartLabel (shortPartLabel (strL "x phrase line"))
      ≠ shortPartLabel (strL "x phrase line") := by
  decide

/-! ## Claim C10 -/

theorem round1_nonneg (q : ℚ) (h : 0 ≤ q) : 0 ≤ round1 q := by
  unfold round1
  have h1 : (0 : ℤ) ≤ round (10 * q) := by
    rw [round_eq]
    apply Int.floor_nonneg.mpr
    have : (0 : ℚ) ≤ 10 * q := by positivity
    linarith
  have h2 : (0 : ℚ) ≤ ((round (10 * q) : ℤ) : ℚ) := by exact_mod_cast h1
  positivity

/-- C10 (amended): `apply_decay` frame and clamp.  A record whose type is
`part` or `set`, or whose `last_score_updated` is absent or empty, or whose
timestamp fails to parse, or whose parsed timestamp is not strictly earlier
than `now`, is left exactly as it is.  A record of any other type with a
non-empty parseable timestamp strictly in the past gets exactly two fields
changed: `score` becomes `max(0, score - rate*elapsed_days)` rounded to one
decimal (never negative; an absent score reads as 0), and
`last_score_updated` becomes the formatted `now`.  `apply_decay` applies
this per-record transformation to every stored item, touching no keys. -/
theorem apply_decay_frame_and_clamp (parse : Str → Option ℚ) (nowSec : ℚ)
    (nowStr : Str) (rate : ℚ) (rec : PracticeItem) (items : Items) :
    ((rec.itemType = some (strL "part") ∨ rec.itemType = some (strL "set")) →
      decayRec parse nowSec nowStr rate rec = rec)
    ∧ (rec.last_score_updated = none ∨ rec.last_score_updated = some [] →
      decayRec parse nowSec nowStr rate rec = rec)
    ∧ (∀ s, rec.last_score_updated = some s → s ≠ [] → parse s = none →
      decayRec parse nowSec nowStr rate rec = rec)
    ∧ (∀ s t, rec.last_score_updated = some s → s ≠ [] → parse s = some t →
      (nowSec - t) / 86400 ≤ 0 →
      decayRec parse nowSec nowStr rate rec = rec)
    ∧ (∀ s t,
      ¬(rec.itemType = some (strL "part") ∨ rec.itemType = some (strL "set")) →
      rec.last_score_updated = some s → s ≠ [] → parse s = some t →
      0 < (nowSec - t) / 86400 →
      decayRec parse nowSec nowStr rate rec
        = { rec with
            score := some (round1 (max 0
              (rec.score.getD 0 - rate * ((nowSec - t) / 86400))))
            last_score_updated := some nowStr }
      ∧ 0 ≤ round1 (max 0 (rec.score.getD 0 - rate * ((nowSec - t) / 86400))))
    ∧ (applyDecay parse nowSec nowStr rate items).map Prod.fst
        = items.map Prod.fst
    ∧ (∀ k r, (k, r) ∈ items →
      (k, decayRec parse nowSec nowStr rate r)
        ∈ applyDecay parse nowSec nowStr rate items) := by
  refine ⟨?_, ?_, ?_, ?_, ?_, ?_, ?_⟩
  · intro h
    unfold decayRec
    rw [if_pos h]
  · intro h
    unfold decayRec
    by_cases htype : rec.itemType = some (strL "part")
        ∨ rec.itemType = some (strL "set")
    · rw [if_pos htype]
    · rw [if_neg htype]
      rcases h with h | h <;> simp [h]
  · intro s hlsu hs hparse
    unfold decayRec
    by_cases htype : rec.itemType = some (strL "part")
        ∨ rec.itemType = some (strL "set")
    · rw [if_pos htype]
    · rw [if_neg htype, hlsu]
      simp only [if_neg hs, hparse]
  · intro s t hlsu hs hparse hle
    unfold decayRec
    by_cases htype : rec.itemType = some (strL "part")
        ∨ rec.itemType = some (strL "set")
    · rw [if_pos htype]
    · rw [if_neg htype, hlsu]
      simp only [if_neg hs, hparse]
      have hdays : max 0 ((nowSec - t) / 86400) ≤ 0 := by
        apply max_le le_rfl hle
      rw [if_pos hdays]
  · intro s t htype hlsu hs hparse hpos
    have hmax : max 0 ((nowSec - t) / 86400) = (nowSec - t) / 86400 :=
      max_eq_right hpos.le
    constructor
    · unfold decayRec
      rw [if_neg htype, hlsu]
      simp only [if_neg hs, hparse]
      rw [if_neg (by rw [hmax]; exact not_le.mpr hpos), hmax]
    · exact round1_nonneg _ (le_max_left _ _)
  · unfold applyDecay
    rw [List.map_map]
    rfl
  · intro k r hmem
    unfold applyDecay
    exact List.mem_map_of_mem _ hmem

/-- Witness for C10 (amended) at concrete inputs: a part record and a fresh
timestamp are untouched; a tune with a one-day-old timestamp decays from 50
to 49. -/
theorem apply_decay_frame_and_clamp_witness :
    decayRec (fun _ => some 0) 86400 (strL "NOW") 1
        { itemType := some (strL "part"), streak := some 0, score := some 50,
          last_practiced := none, last_score_updated := some (strL "T"),
          missing := some false }
      = { itemType := some (strL "part"), streak := some 0, score := some 50,
          last_practiced := none, last_score_updated := some (strL "T"),
          missing := some false }
    ∧ decayRec (fun _ => some 0) 86400 (strL "NOW") 1
        { itemType := some (strL "tune"), streak := some 0, score := some 50,
          last_practiced := none, last_score_updated := some (strL "T"),
          missing := some false }
      = { itemType := some (strL "tune"), streak := some 0,
          score := some (round1 (max 0 (50 - 1 * ((86400 - 0) / 86400)))),
          last_practiced := none, last_score_updated := some (strL "NOW"),
          missing := some false } := by
  constructor
  · exact (apply_decay_frame_and_clamp (fun _ => some 0) 86400 (strL "NOW") 1
      _ []).1 (Or.inl rfl)
  · exact ((apply_decay_frame_and_clamp (fun _ => some 0) 86400 (strL "NOW") 1
      _ []).2.2.2.2.1 (strL "T") 0 (by decide) rfl (by decide) rfl
      (by norm_num)).1

/-- Counterexample to C10 as stated: a tune record carrying a non-empty,
parseable `last_score_updated` equal to `now` is left completely unchanged
by `apply_decay` (the code skips whenever the elapsed time is not strictly
positive), although the claim requires its score to be rounded
(`0.15 ↦ 0.2`) and its timestamp refreshed. -/
theorem apply_decay_zero_elapsed_cex :
    applyDecay (fun s => if s = strL "T0" then some 0 else none) 0 (strL "NOW") 1
        [(strL "k", { itemType := some (strL "tune"), streak := some 0,
                      score := some (3 / 20), last_practiced := none,
                      last_score_updated := some (strL "T0"),
                      missing := some false })]
      = [(strL "k", { itemType := some (strL "tune"), streak := some 0,
                      score := some (3 / 20), last_practiced := none,
                      last_score_updated := some (strL "T0"),
                      missing := some false })]
    ∧ (strL "T0" ≠ [])
    ∧ (fun s => if s = strL "T0" then some 0 else none) (strL "T0")
        = some (0 : ℚ)
    ∧ some ((3 : ℚ) / 20)
        ≠ some (round1 (max 0 ((3 : ℚ) / 20 - 1 * ((0 - 0) / 86400))))
    ∧ some (strL "T0") ≠ some (strL "NOW") := by
  refine ⟨?_, by decide, rfl, ?_, by decide⟩
  · unfold applyDecay
    simp only [List.map_cons, List.map_nil]
    have hrec : decayRec (fun s => if s = strL "T0" then some 0 else none) 0
        (strL "NOW") 1
        { itemType := some (strL "tune"), streak := some 0,
          score := some (3 / 20), last_practiced := none,
          last_score_updated := some (strL "T0"), missing := some false }
      = { itemType := some (strL "tune"), streak := some 0,
          score := some (3 / 20), last_practiced := none,
          last_score_updated := some (strL "T0"), missing := some false } := by
      unfold decayRec
      rw [if_neg (by decide)]
      dsimp only
      rw [if_neg (show ¬(strL "T0" = ([] : Str)) by decide),
        if_pos (show strL "T0" = strL "T0" from rfl)]
      dsimp only
      rw [if_pos (show max (0 : ℚ) (((0 : ℚ) - 0) / 86400) ≤ 0 by norm_num)]
    rw [hrec]
  · have h1 : ((0 : ℚ) - 0) / 86400 = 0 := by norm_num
    rw [h1]
    have h2 : max (0 : ℚ) ((3 : ℚ) / 20 - 1 * 0) = 3 / 20 := by norm_num
    rw [h2]
    have h3 : round1 ((3 : ℚ) / 20) = 1 / 5 := by
      unfold round1
      rw [show (10 : ℚ) * (3 / 20) = 3 / 2 by norm_num, round_eq,
        show (3 : ℚ) / 2 + 1 / 2 = 2 by norm_num]
      norm_num
    rw [h3]
    norm_num

/-! ## Claim C9 -/

theorem countP_flatMap {α β : Type} (p : β → Bool) (f : α → List β) :
    ∀ l : List α, (l.flatMap f).countP p = (l.map (fun a => (f a).countP p)).sum := by
  intro l
  induction l with
  | nil => simp
  | cons a t ih => simp [List.flatMap_cons, List.countP_append, ih]

theorem map_sum_single {α : Type} (g : α → Nat) (l : List α) (a : α)
    (hmem : a ∈ l) (hnd : l.Nodup) (hz : ∀ b ∈ l, b ≠ a → g b = 0) :
    (l.map g).sum = g a := by
  induction l with
  | nil => simp at hmem
  | cons b t ih =>
    rcases List.mem_cons.mp hmem with hba | hat
    · have hz0 : ∀ c ∈ t, g c = 0 := by
        intro c hc
        apply hz c (List.mem_cons_of_mem _ hc)
        intro he
        rw [he, hba] at hc
        exact (List.nodup_cons.mp hnd).1 hc
      have hsz : (t.map g).sum = 0 := by
        rw [List.sum_eq_zero]
        intro x hx
        obtain ⟨c, hc, hcx⟩ := List.mem_map.mp hx
        rw [← hcx]
        exact hz0 c hc
      rw [hba]
      simp [hsz]
    · have hba : b ≠ a := by
        intro he
        rw [← he] at hat
        exact (List.nodup_cons.mp hnd).1 hat
      have hgb : g b = 0 := hz b (List.mem_cons_self _ _) hba
      simp only [List.map_cons, List.sum_cons, hgb, Nat.zero_add]
      exact ih hat (List.nodup_cons.mp hnd).2
        (fun c hc => hz c (List.mem_cons_of_mem _ hc))

theorem countP_key_unique {α : Type} (key : α → Str) (x : Str) :
    ∀ l : List α, (l.map key).Nodup → (∃ a ∈ l, key a = x) →
    l.countP (fun b => decide (key b = x)) = 1 := by
  intro l
  induction l with
  | nil =>
    rintro _ ⟨a, ha, _⟩
    simp at ha
  | cons b t ih =>
    rintro hnodup ⟨a, ha, hax⟩
    rw [List.map_cons, List.nodup_cons] at hnodup
    rcases List.mem_cons.mp ha with hab | hat
    · have hbx : key b = x := by rw [← hab]; exact hax
      have hzero : t.countP (fun c => decide (key c = x)) = 0 := by
        rw [List.countP_eq_zero]
        intro c hc
        simp only [decide_eq_true_eq]
        intro hcx
        apply hnodup.1
        rw [hbx, ← hcx]
        exact List.mem_map_of_mem key hc
      rw [List.countP_cons, hzero]
      simp [hbx]
    · have hbx : ¬(key b = x) := by
        intro hbe
        apply hnodup.1
        rw [hbe, ← hax]
        exact List.mem_map_of_mem key hat
      rw [List.countP_cons, ih hnodup.2 ⟨a, hat, hax⟩]
      simp [hbx]

/-- C9 (amended): set-folder exclusion.  At the set level only hidden names
(leading `.`) are excluded: for every retained section (name matching
`Section N -`, not excluded at the root) and every immediate subdirectory,
discovery produces no SetRecord for a `.`-prefixed subdirectory and exactly
one SetRecord for every other subdirectory — including names starting with
`#` and the reserved name `Tune Resources`, which are excluded only at the
section level (see the counterexample to the original claim). -/
theorem discover_set_exclusion (lib : List SectionDir)
    (smap : Option (List SMSection)) (items : Items) (sec : SectionDir)
    (sd : SetDir)
    (hnl : (lib.map SectionDir.name).Nodup)
    (hsec : sec ∈ lib)
    (hkeep : (!shouldExcludeDir sec.name && sectionPat sec.name) = true)
    (hns : (sec.setDirs.map SetDir.name).Nodup)
    (hsd : sd ∈ sec.setDirs) :
    (discover lib smap items).countP
        (fun r => decide (r.section_name = sec.name
          ∧ r.set_folder_name = sd.name))
      = if (strL ".").isPrefixOf sd.name then 0 else 1 := by
  set p : SetRecord → Bool := fun r => decide (r.section_name = sec.name
    ∧ r.set_folder_name = sd.name) with hp
  have hperm := List.perm_insertionSort setRecLe
    ((lib.filter (fun s => !shouldExcludeDir s.name && sectionPat s.name)).flatMap
      (fun s => (s.setDirs.filter
          (fun d => !(strL ".").isPrefixOf d.name)).map
        (fun d => mkSetRecord s.name d smap items)))
  have hcount : (discover lib smap items).countP p
      = ((lib.filter (fun s => !shouldExcludeDir s.name && sectionPat s.name)).flatMap
          (fun s => (s.setDirs.filter
              (fun d => !(strL ".").isPrefixOf d.name)).map
            (fun d => mkSetRecord s.name d smap items))).countP p :=
    hperm.countP_eq p
  rw [hcount, countP_flatMap]
  have hlibnd : lib.Nodup := List.Nodup.of_map _ hnl
  have hsum := map_sum_single
    (fun s => ((s.setDirs.filter (fun d => !(strL ".").isPrefixOf d.name)).map
        (fun d => mkSetRecord s.name d smap items)).countP p)
    (lib.filter (fun s => !shouldExcludeDir s.name && sectionPat s.name))
    sec
    (List.mem_filter.mpr ⟨hsec, hkeep⟩)
    (hlibnd.filter _)
    ?_
  · rw [hsum]
    dsimp only
    have hmap : ((sec.setDirs.filter (fun d => !(strL ".").isPrefixOf d.name)).map
          (fun d => mkSetRecord sec.name d smap items)).countP p
        = (sec.setDirs.filter (fun d => !(strL ".").isPrefixOf d.name)).countP
            (fun d => decide (d.name = sd.name)) := by
      rw [List.countP_map]
      apply List.countP_congr
      intro d _
      simp [hp, Function.comp, mkSetRecord]
    rw [hmap]
    by_cases hhid : (strL ".").isPrefixOf sd.name
    · rw [if_pos hhid, List.countP_eq_zero]
      intro d hd
      simp only [decide_eq_true_eq]
      intro hdx
      have := (List.mem_filter.mp hd).2
      rw [hdx, hhid] at this
      simp at this
    · rw [if_neg hhid]
      apply countP_key_unique SetDir.name sd.name
      · have hsub : ((sec.setDirs.filter
            (fun d => !(strL ".").isPrefixOf d.name)).map SetDir.name).Sublist
            (sec.setDirs.map SetDir.name) :=
          (List.filter_sublist _).map _
        exact hns.sublist hsub
      · exact ⟨sd, List.mem_filter.mpr ⟨hsd, by simp [hhid]⟩, rfl⟩
  · intro b hb hbne
    rw [List.countP_eq_zero]
    intro r hr
    obtain ⟨d, _, hd2⟩ := List.mem_map.mp hr
    have hbn : b.name ≠ sec.name := by
      intro he
      exact hbne (List.inj_on_of_nodup_map hnl (List.mem_filter.mp hb).1 hsec he)
    simp only [hp, decide_eq_true_eq, ← hd2, mkSetRecord]
    intro hcon
    exact hbn hcon.1

/-- Witness for C9 (amended) at a concrete library: the section holds a
hidden set folder (0 records), a `#`-prefixed one, the reserved name and an
ordinary one (1 record each). -/
theorem discover_set_exclusion_witness :
    (discover [⟨strL "Section 1 - A",
        [⟨strL ".git", [], none⟩, ⟨strL "#X", [], none⟩,
         ⟨strL "Tune Resources", [], none⟩, ⟨strL "Set 01 - M", [], none⟩]⟩]
      none []).countP
        (fun r => decide (r.section_name = strL "Section 1 - A"
          ∧ r.set_folder_name = strL ".git")) = 0
    ∧ (discover [⟨strL "Section 1 - A",
        [⟨strL ".git", [], none⟩, ⟨strL "#X", [], none⟩,
         ⟨strL "Tune Resources", [], none⟩, ⟨strL "Set 01 - M", [], none⟩]⟩]
      none []).countP
        (fun r => decide (r.section_name = strL "Section 1 - A"
          ∧ r.set_folder_name = strL "#X")) = 1 := by
  constructor
  · have h := discover_set_exclusion
      [⟨strL "Section 1 - A",
        [⟨strL ".git", [], none⟩, ⟨strL "#X", [], none⟩,
         ⟨strL "Tune Resources", [], none⟩, ⟨strL "Set 01 - M", [], none⟩]⟩]
      none []
      ⟨strL "Section 1 - A",
        [⟨strL ".git", [], none⟩, ⟨strL "#X", [], none⟩,
         ⟨strL "Tune Resources", [], none⟩, ⟨strL "Set 01 - M", [], none⟩]⟩
      ⟨strL ".git", [], none⟩
      (by decide) (by decide) (by decide) (by decide) (by decide)
    rw [if_pos (by decide)] at h
    exact h
  · have h := discover_set_exclusion
      [⟨strL "Section 1 - A",
        [⟨strL ".git", [], none⟩, ⟨strL "#X", [], none⟩,
         ⟨strL "Tune Resources", [], none⟩, ⟨strL "Set 01 - M", [], none⟩]⟩]
      none []
      ⟨strL "Section 1 - A",
        [⟨strL ".git", [], none⟩, ⟨strL "#X", [], none⟩,
         ⟨strL "Tune Resources", [], none⟩, ⟨strL "Set 01 - M", [], none⟩]⟩
      ⟨strL "#X", [], none⟩
      (by decide) (by decide) (by decide) (by decide) (by decide)
    rw [if_neg (by decide)] at h
    exact h

/-- Counterexample to C9 as stated: a subdirectory named `#X` (leading `#`)
and one named exactly `Tune Resources` (the reserved resource-folder name)
inside a retained section ARE discovered as sets — `discover` filters set
folders only on a leading `.`; the `#`/reserved-name exclusions apply only
to section folders at the library root. -/
theorem discover_includes_hash_and_reserved_sets_cex :
    (discover [⟨strL "Section 1 - A",
        [⟨strL "#X", [], none⟩, ⟨strL "Tune Resources", [], none⟩]⟩] none
      []).map SetRecord.set_folder_name = [strL "#X", strL "Tune Resources"]
    ∧ (strL "#").isPrefixOf (strL "#X") = true
    ∧ shouldExcludeDir (strL "#X") = true
    ∧ shouldExcludeDir (strL "Tune Resources") = true := by
  decide

/-! ## Claim C6 -/

theorem inferTunes_eq_nil_of_no_pattern (files : List Str)
    (h : ∀ f ∈ files, setPat (stemOf f) = false) :
    inferTunesFromSetFolder files = [] := by
  unfold inferTunesFromSetFolder
  have hfm : files.filterMap tuneCandidate = [] := by
    rw [List.filterMap_eq_nil_iff]
    intro f hf
    have hsp := h f hf
    unfold tuneCandidate
    by_cases h1 : suffixOf f ≠ [] ∧ (lowerS (suffixOf f) = strL ".pdf"
        ∨ lowerS (suffixOf f) = strL ".wav")
    · rw [if_pos h1]
      dsimp only
      by_cases h2 : (INSTRUMENTS.any
          fun inst => endsWith (lowerS (stemOf f)) ('_' :: inst)) = true
      · rw [if_pos h2]
      · rw [if_neg h2, if_neg (by simp [hsp])]
    · rw [if_neg h1]
  rw [hfm]
  rfl

/-- C6: every SetRecord produced by discovery has at least one TuneRef; and
for a set where the structure map yields no tunes and no file stem matches
the `Set NN(a) - Title` inference pattern, the tunes list is exactly one
synthetic TuneRef named after the set folder, with
`tune_id = set_id ++ "|" ++ set folder name`. -/
theorem discover_every_set_has_a_tune (lib : List SectionDir)
    (smap : Option (List SMSection)) (items : Items) :
    (∀ r ∈ discover lib smap items, r.tunes ≠ [])
    ∧ (∀ (section_name : Str) (sd : SetDir),
      smapTunesFor smap section_name (section_name ++ '|' :: sd.name) sd.name
          = [] →
      (∀ f ∈ sd.files, setPat (stemOf f) = false) →
      (mkSetRecord section_name sd smap items).tunes
        = [⟨sd.name, (section_name ++ '|' :: sd.name) ++ '|' :: sd.name⟩]) := by
  constructor
  · intro r hr
    have hraw : r ∈ (lib.filter
        (fun s => !shouldExcludeDir s.name && sectionPat s.name)).flatMap
        (fun s => (s.setDirs.filter
            (fun d => !(strL ".").isPrefixOf d.name)).map
          (fun d => mkSetRecord s.name d smap items)) := by
      have hperm := List.perm_insertionSort setRecLe
        ((lib.filter (fun s => !shouldExcludeDir s.name && sectionPat s.name)).flatMap
          (fun s => (s.setDirs.filter
              (fun d => !(strL ".").isPrefixOf d.name)).map
            (fun d => mkSetRecord s.name d smap items)))
      exact hperm.mem_iff.mp hr
    obtain ⟨s, _, hr2⟩ := List.mem_flatMap.mp hraw
    obtain ⟨d, _, hd2⟩ := List.mem_map.mp hr2
    rw [← hd2]
    show (mkSetRecord s.name d smap items).tunes ≠ []
    unfold mkSetRecord
    dsimp only
    by_cases hB : (if smapTunesFor smap s.name (s.name ++ '|' :: d.name) d.name = []
        then (inferTunesFromSetFolder d.files).map
          (fun tn => ⟨tn, (s.name ++ '|' :: d.name) ++ '|' :: tn⟩)
        else smapTunesFor smap s.name (s.name ++ '|' :: d.name) d.name) = []
    · rw [if_pos hB]
      simp
    · rw [if_neg hB]
      exact hB
  · intro section_name sd hs hpat
    have hinf := inferTunes_eq_nil_of_no_pattern sd.files hpat
    unfold mkSetRecord
    dsimp only
    rw [hs, if_pos rfl, hinf]
    simp

/-- Witness for C6 at a concrete single-score competition set: discovery
keeps a nonempty tunes list, and the tunes list is exactly the synthetic
folder-named TuneRef. -/
theorem discover_every_set_has_a_tune_witness :
    (mkSetRecord (strL "Section 1 - Test")
        ⟨strL "Comp 08 - P", [strL "Comp 08 - P.wav"], none⟩ none []).tunes ≠ []
    ∧ (mkSetRecord (strL "Section 1 - Test")
        ⟨strL "Comp 08 - P", [strL "Comp 08 - P.wav"], none⟩ none []).tunes
      = [⟨strL "Comp 08 - P",
          (strL "Section 1 - Test" ++ '|' :: strL "Comp 08 - P")
            ++ '|' :: strL "Comp 08 - P"⟩] :=
  ⟨(discover_every_set_has_a_tune
      [⟨strL "Section 1 - Test", [⟨strL "Comp 08 - P", [strL "Comp 08 - P.wav"],
        none⟩]⟩] none []).1
      (mkSetRecord (strL "Section 1 - Test")
        ⟨strL "Comp 08 - P", [strL "Comp 08 - P.wav"], none⟩ none [])
      (by decide),
    (discover_every_set_has_a_tune [] none []).2 (strL "Section 1 - Test")
      ⟨strL "Comp 08 - P", [strL "Comp 08 - P.wav"], none⟩ rfl (by decide)⟩

/-! ## Claim C7 -/

theorem pdfWav_foldl_filter :
    ∀ (files : List Str) (acc : List (Str × Str) × List (Str × Str)),
    files.foldl pdfWavStep acc
      = (files.filter (fun f => (getPartLabel f).isSome)).foldl pdfWavStep acc := by
  intro files
  induction files with
  | nil => intro acc; rfl
  | cons f t ih =>
    intro acc
    by_cases hl : (getPartLabel f).isSome = true
    · simp only [List.filter_cons, hl, if_true, List.foldl_cons]
      exact ih (pdfWavStep acc f)
    · have hstep : pdfWavStep acc f = acc := by
        unfold pdfWavStep
        rw [if_pos (Option.not_isSome_iff_eq_none.mp hl)]
      simp only [List.filter_cons, if_neg hl, List.foldl_cons, hstep]
      exact ih acc

/-- C7: label detection and filtering.  Files whose name holds none of the
`phrase`/`line`/`part` keywords contribute nothing to the PartRecord output
(the output over a folder equals the output over the folder with those files
removed, even when they form a valid PDF+WAV pair); every produced record's
label is `_get_part_label` of its pairing key; and `_get_part_label` returns
the first of `phrase`, `line`, `part` — checked in that fixed order — that
occurs case-insensitively in its argument, or none. -/
theorem part_label_filter_and_priority (files : List Str) (sid : Str)
    (items : Items) :
    (discoverParts files sid items
      = discoverParts (files.filter (fun f => (getPartLabel f).isSome)) sid items)
    ∧ (∀ r ∈ discoverParts files sid items,
      getPartLabel r.part_id = some r.label)
    ∧ (∀ s : Str, getPartLabel s =
        if containsSub (strL "phrase") (lowerS s) then some (strL "phrase")
        else if containsSub (strL "line") (lowerS s) then some (strL "line")
        else if containsSub (strL "part") (lowerS s) then some (strL "part")
        else none) := by
  refine ⟨?_, ?_, ?_⟩
  · have hdicts : pdfWavDicts files
        = pdfWavDicts (files.filter (fun f => (getPartLabel f).isSome)) := by
      unfold pdfWavDicts
      exact pdfWav_foldl_filter files ([], [])
    unfold discoverParts bucketFor acceptedTriples
    rw [hdicts]
  · intro r hr
    obtain ⟨lb, hlb, hr2⟩ := List.mem_flatMap.mp hr
    obtain ⟨t, ht, ht2⟩ := List.mem_map.mp hr2
    have htb : t ∈ bucketFor lb files := by
      have hperm := List.perm_insertionSort
        (fun a b : Str × Str × Str =>
          streakFor sid items a.1 ≤ streakFor sid items b.1)
        (bucketFor lb files)
      exact hperm.mem_iff.mp ht
    have htb' : t ∈ (acceptedTriples files).filter
        (fun u => decide (getPartLabel u.1 = some lb)) := by
      simpa [bucketFor] using htb
    have hlab : getPartLabel t.1 = some lb :=
      of_decide_eq_true (List.mem_filter.mp htb').2
    rw [← ht2]
    show getPartLabel t.1 = some lb
    exact hlab
  · intro s
    unfold getPartLabel PART_LABELS
    by_cases h1 : containsSub (strL "phrase") (lowerS s)
    · simp [List.find?_cons, h1]
    · by_cases h2 : containsSub (strL "line") (lowerS s)
      · simp [List.find?_cons, h1, h2]
      · by_cases h3 : containsSub (strL "part") (lowerS s)
        · simp [List.find?_cons, h1, h2, h3]
        · simp [List.find?_cons, h1, h2, h3]

/-- Witness for C7: the `other.pdf`/`other.wav` pair is dropped from a
concrete folder; the produced record's label is its key's detected label;
the detector picks `part` from `bass_part_A.wav`. -/
theorem part_label_filter_and_priority_witness :
    (discoverParts
        [strL "phrase_01.pdf", strL "phrase_01.wav",
         strL "other.pdf", strL "other.wav"] (strL "S") []
      = discoverParts
        ([strL "phrase_01.pdf", strL "phrase_01.wav",
          strL "other.pdf", strL "other.wav"].filter
          (fun f => (getPartLabel f).isSome)) (strL "S") [])
    ∧ getPartLabel
        (mkPartRec (strL "phrase") (strL "phrase_01",
          strL "phrase_01.pdf", strL "phrase_01.wav")).part_id
      = some (mkPartRec (strL "phrase") (strL "phrase_01",
          strL "phrase_01.pdf", strL "phrase_01.wav")).label
    ∧ getPartLabel (strL "bass_part_A.wav") =
        (if containsSub (strL "phrase") (lowerS (strL "bass_part_A.wav"))
          then some (strL "phrase")
          else if containsSub (strL "line") (lowerS (strL "bass_part_A.wav"))
          then some (strL "line")
          else if containsSub (strL "part") (lowerS (strL "bass_part_A.wav"))
          then some (strL "part")
          else none) :=
  ⟨(part_label_filter_and_priority
      [strL "phrase_01.pdf", strL "phrase_01.wav",
       strL "other.pdf", strL "other.wav"] (strL "S") []).1,
    (part_label_filter_and_priority
      [strL "phrase_01.pdf", strL "phrase_01.wav"] (strL "S") []).2.1
      (mkPartRec (strL "phrase") (strL "phrase_01",
        strL "phrase_01.pdf", strL "phrase_01.wav")) (by decide),
    (part_label_filter_and_priority [] (strL "S") []).2.2
      (strL "bass_part_A.wav")⟩

/-! ## String lemmas for the pairing claims -/

theorem isPrefixOf_self (l : Str) : l.isPrefixOf l = true :=
  List.isPrefixOf_iff_prefix.mpr List.prefix_rfl

theorem isPrefixOf_append_ext (p a b : Str) (h : p.isPrefixOf a = true) :
    p.isPrefixOf (a ++ b) = true := by
  rw [ List.isPrefixOf_iff_prefix] at h ⊢
  exact h.trans (List.prefix_append a b)

theorem containsSub_nil_needle (s : Str) : containsSub [] s = true := by
  cases s <;> rfl

theorem containsSub_append_of_left (n a b : Str)
    (h : containsSub n a = true) : containsSub n (a ++ b) = true := by
  induction a with
  | nil =>
    have hn : n = [] := by
      unfold containsSub at h
      exact List.isEmpty_iff.mp h
    rw [hn]
    exact containsSub_nil_needle _
  | cons x a' ih =>
    rcases (show n.isPrefixOf (x :: a') = true ∨ containsSub n a' = true by
        simpa [containsSub] using h) with hp | hc
    · show (n.isPrefixOf (x :: (a' ++ b)) || containsSub n (a' ++ b)) = true
      rw [Bool.or_eq_true]
      left
      exact isPrefixOf_append_ext n (x :: a') b hp
    · show (n.isPrefixOf (x :: (a' ++ b)) || containsSub n (a' ++ b)) = true
      rw [Bool.or_eq_true]
      right
      exact ih hc

theorem isPrefixOf_append_cases (p a b : Str)
    (h : p.isPrefixOf (a ++ b) = true) :
    p.isPrefixOf a = true ∨ ∃ c, b.head? = some c ∧ c ∈ p := by
  induction a generalizing p with
  | nil =>
    cases p with
    | nil => left; rfl
    | cons c p' =>
      right
      cases b with
      | nil => simp [List.isPrefixOf] at h
      | cons b0 bs =>
        simp only [List.nil_append, List.isPrefixOf, Bool.and_eq_true,
          beq_iff_eq] at h
        exact ⟨b0, rfl, h.1 ▸ List.mem_cons_self _ _⟩
  | cons x a' ih =>
    cases p with
    | nil => left; rfl
    | cons q p' =>
      simp only [List.cons_append, List.isPrefixOf, Bool.and_eq_true,
        beq_iff_eq] at h
      rcases ih p' h.2 with hl | ⟨c, hc1, hc2⟩
      · left
        simp [List.isPrefixOf, h.1, hl]
      · right
        exact ⟨c, hc1, List.mem_cons_of_mem _ hc2⟩

theorem containsSub_append_split (n a b : Str)
    (h : containsSub n (a ++ b) = true) :
    containsSub n a = true ∨ containsSub n b = true
      ∨ ∃ c, b.head? = some c ∧ c ∈ n := by
  induction a with
  | nil =>
    right; left
    simpa using h
  | cons x a' ih =>
    have h' : (n.isPrefixOf ((x :: a') ++ b) || containsSub n (a' ++ b)) = true := h
    rcases (show n.isPrefixOf ((x :: a') ++ b) = true
        ∨ containsSub n (a' ++ b) = true by
        simpa using h') with hp | hc
    · rcases isPrefixOf_append_cases n (x :: a') b hp with hpa | hcb
      · left
        show (n.isPrefixOf (x :: a') || containsSub n a') = true
        rw [Bool.or_eq_true]
        left
        exact hpa
      · right; right
        exact hcb
    · rcases ih hc with h1 | h2 | h3
      · left
        show (n.isPrefixOf (x :: a') || containsSub n a') = true
        rw [Bool.or_eq_true]
        right
        exact h1
      · right; left
        exact h2
      · right; right
        exact h3

theorem endsWith_append_right (a b c : Str) (h : endsWith b c = true) :
    endsWith (a ++ b) c = true := by
  unfold endsWith at h ⊢
  rw [List.reverse_append]
  exact isPrefixOf_append_ext _ _ _ h

theorem endsWith_disjoint (s t1 t2 : Str) (h1 : endsWith s t1 = true)
    (hlen : t1.length ≤ t2.length)
    (hnp : t1.reverse.isPrefixOf t2.reverse = false) :
    endsWith s t2 = false := by
  by_contra hcon
  have h2 : endsWith s t2 = true := by
    simpa using hcon
  unfold endsWith at h1 h2
  rw [ List.isPrefixOf_iff_prefix] at h1 h2
  have hp : t1.reverse <+: t2.reverse :=
    List.prefix_of_prefix_length_le h1 h2 (by simpa using hlen)
  rw [← List.isPrefixOf_iff_prefix] at hp
  rw [hp] at hnp
  exact Bool.noConfusion hnp

theorem lastIdxOf_append (c : Char) (a b : Str) :
    lastIdxOf c (a ++ b) =
      match lastIdxOf c b with
      | some j => some (a.length + j)
      | none => lastIdxOf c a := by
  induction a with
  | nil => cases hb : lastIdxOf c b <;> simp [hb, lastIdxOf]
  | cons x a' ih =>
    cases hb : lastIdxOf c b with
    | some j =>
      have ih' : lastIdxOf c (a' ++ b) = some (a'.length + j) := by
        rw [ih, hb]
      show (match lastIdxOf c (a' ++ b) with
        | some i => some (i + 1)
        | none => if x = c then some 0 else none) = some ((x :: a').length + j)
      rw [ih']
      show some (a'.length + j + 1) = some (a'.length + 1 + j)
      congr 1
      omega
    | none =>
      have ih' : lastIdxOf c (a' ++ b) = lastIdxOf c a' := by
        rw [ih, hb]
      show (match lastIdxOf c (a' ++ b) with
        | some i => some (i + 1)
        | none => if x = c then some 0 else none)
        = (match lastIdxOf c a' with
        | some i => some (i + 1)
        | none => if x = c then some 0 else none)
      rw [ih']

theorem stemOf_append (X C : Str) (j : Nat) (hj : lastIdxOf '.' C = some j)
    (hpos : 0 < X.length + j) (hlt : j + 1 < C.length) :
    stemOf (X ++ C) = X ++ C.take j := by
  unfold stemOf splitName
  rw [lastIdxOf_append, hj]
  show (if 0 < X.length + j ∧ X.length + j < (X ++ C).length - 1
    then ((X ++ C).take (X.length + j), (X ++ C).drop (X.length + j))
    else (X ++ C, [])).1 = X ++ C.take j
  rw [if_pos (by
    constructor
    · exact hpos
    · rw [List.length_append]
      omega)]
  show (X ++ C).take (X.length + j) = X ++ C.take j
  rw [List.take_append_eq_append_take, List.take_of_length_le (by omega)]
  congr 1
  congr 1
  omega

theorem getPartLabel_ite (s : Str) :
    getPartLabel s =
      if containsSub (strL "phrase") (lowerS s) = true then some (strL "phrase")
      else if containsSub (strL "line") (lowerS s) = true then some (strL "line")
      else if containsSub (strL "part") (lowerS s) = true then some (strL "part")
      else none := by
  unfold getPartLabel PART_LABELS
  by_cases h1 : containsSub (strL "phrase") (lowerS s) = true
  · simp [List.find?_cons, h1]
  · by_cases h2 : containsSub (strL "line") (lowerS s) = true
    · simp [List.find?_cons, h1, h2]
    · by_cases h3 : containsSub (strL "part") (lowerS s) = true
      · simp [List.find?_cons, h1, h2, h3]
      · simp [List.find?_cons, h1, h2, h3]

theorem lowerS_append (a b : Str) : lowerS (a ++ b) = lowerS a ++ lowerS b :=
  List.map_append _ _ _

theorem instrumentSuffixes_eq :
    instrumentSuffixes =
      [strL "_bagpipes", strL " bagpipes", strL "_seconds", strL " seconds",
       strL "_bass", strL " bass", strL "_snare", strL " snare",
       strL "_tenor", strL " tenor"] := rfl

theorem stemToBaseKey_wav (stem : Str) : stemToBaseKey stem false = stem := by
  unfold stemToBaseKey
  rw [if_pos (by decide)]

theorem stemToBaseKey_strip (X : Str) (C : Str)
    (hfind : instrumentSuffixes.find?
        (fun suf => endsWith (lowerS (X ++ C)) suf) = some C) :
    stemToBaseKey (X ++ C) true = X := by
  unfold stemToBaseKey
  rw [if_neg (by decide), hfind]
  show (X ++ C).take ((X ++ C).length - C.length) = X
  rw [List.length_append,
    show X.length + C.length - C.length = X.length by omega,
    List.take_append_eq_append_take, List.take_of_length_le (le_refl _),
    show X.length - X.length = 0 by omega]
  simp

theorem stemToBaseKey_bagpipes (X : Str) :
    stemToBaseKey (X ++ strL "_bagpipes") true = X := by
  apply stemToBaseKey_strip
  rw [instrumentSuffixes_eq]
  have hend : endsWith (lowerS (X ++ strL "_bagpipes")) (strL "_bagpipes")
      = true := by
    rw [lowerS_append, show lowerS (strL "_bagpipes") = strL "_bagpipes" from rfl]
    exact endsWith_append_right _ _ _ (by decide)
  rw [List.find?_cons_of_pos _ hend]

theorem stemToBaseKey_bass (X : Str) :
    stemToBaseKey (X ++ strL "_bass") true = X := by
  apply stemToBaseKey_strip
  rw [instrumentSuffixes_eq]
  have hlow : lowerS (X ++ strL "_bass") = lowerS X ++ strL "_bass" := by
    rw [lowerS_append, show lowerS (strL "_bass") = strL "_bass" from rfl]
  have hself : endsWith (lowerS (X ++ strL "_bass")) (strL "_bass") = true := by
    rw [hlow]
    exact endsWith_append_right _ _ _ (by decide)
  have hno : ∀ t2 : Str, (strL "_bass").length ≤ t2.length →
      (strL "_bass").reverse.isPrefixOf t2.reverse = false →
      endsWith (lowerS (X ++ strL "_bass")) t2 = false := by
    intro t2 hl hp
    exact endsWith_disjoint _ _ _ hself hl hp
  rw [List.find?_cons_of_neg _ (by rw [hno _ (by decide) (by decide)]; decide),
    List.find?_cons_of_neg _ (by rw [hno _ (by decide) (by decide)]; decide),
    List.find?_cons_of_neg _ (by rw [hno _ (by decide) (by decide)]; decide),
    List.find?_cons_of_neg _ (by rw [hno _ (by decide) (by decide)]; decide),
    List.find?_cons_of_pos _ hself]

theorem assocSet_mem (d : List (Str × Str)) (k v : Str) (kv : Str × Str)
    (h : kv ∈ pdfWavStep.assocSet d k v) : kv ∈ d ∨ kv = (k, v) := by
  induction d with
  | nil =>
    right
    simpa [pdfWavStep.assocSet] using h
  | cons hd tl ih =>
    obtain ⟨k0, v0⟩ := hd
    unfold pdfWavStep.assocSet at h
    by_cases he : k0 = k
    · rw [if_pos he] at h
      rcases List.mem_cons.mp h with h1 | h1
      · right; exact h1
      · left; exact List.mem_cons_of_mem _ h1
    · rw [if_neg he] at h
      rcases List.mem_cons.mp h with h1 | h1
      · left; exact h1 ▸ List.mem_cons_self _ _
      · rcases ih h1 with h2 | h2
        · left; exact List.mem_cons_of_mem _ h2
        · right; exact h2

theorem assocGet_mem (d : List (Str × Str)) (k v : Str)
    (h : assocGet d k = some v) : (k, v) ∈ d := by
  induction d with
  | nil => simp [assocGet] at h
  | cons hd tl ih =>
    obtain ⟨k0, v0⟩ := hd
    unfold assocGet at h
    by_cases he : k0 = k
    · rw [if_pos he] at h
      have hv : v0 = v := Option.some_inj.mp h
      rw [← he, ← hv]
      exact List.mem_cons_self _ _
    · rw [if_neg he] at h
      exact List.mem_cons_of_mem _ (ih h)

theorem pdfWavDicts_entries (files0 : List Str) :
    ∀ (l : List Str) (acc : List (Str × Str) × List (Str × Str)),
    (∀ f ∈ l, f ∈ files0) →
    (∀ kv ∈ acc.1, kv.2 ∈ files0
      ∧ endsWith (lowerS kv.2) (strL ".pdf") = true
      ∧ stemToBaseKey (stemOf kv.2) true = kv.1) →
    (∀ kv ∈ acc.2, kv.2 ∈ files0
      ∧ endsWith (lowerS kv.2) (strL ".wav") = true
      ∧ stemToBaseKey (stemOf kv.2) false = kv.1) →
    ((∀ kv ∈ (l.foldl pdfWavStep acc).1, kv.2 ∈ files0
      ∧ endsWith (lowerS kv.2) (strL ".pdf") = true
      ∧ stemToBaseKey (stemOf kv.2) true = kv.1)
    ∧ (∀ kv ∈ (l.foldl pdfWavStep acc).2, kv.2 ∈ files0
      ∧ endsWith (lowerS kv.2) (strL ".wav") = true
      ∧ stemToBaseKey (stemOf kv.2) false = kv.1)) := by
  intro l
  induction l with
  | nil =>
    intro acc _ h1 h2
    exact ⟨h1, h2⟩
  | cons f t ih =>
    intro acc hsub h1 h2
    refine ih (pdfWavStep acc f)
      (fun g hg => hsub g (List.mem_cons_of_mem _ hg)) ?_ ?_
    · intro kv hkv
      unfold pdfWavStep at hkv
      by_cases hl : getPartLabel f = none
      · rw [if_pos hl] at hkv
        exact h1 kv hkv
      · rw [if_neg hl] at hkv
        by_cases hp : endsWith (lowerS f) (strL ".pdf") = true
        · rw [if_pos hp] at hkv
          dsimp only at hkv
          rcases assocSet_mem _ _ _ _ hkv with hold | hnew
          · exact h1 kv hold
          · rw [hnew]
            exact ⟨hsub f (List.mem_cons_self _ _), hp, rfl⟩
        · rw [if_neg hp] at hkv
          by_cases hw : endsWith (lowerS f) (strL ".wav") = true
          · rw [if_pos hw] at hkv
            exact h1 kv hkv
          · rw [if_neg hw] at hkv
            exact h1 kv hkv
    · intro kv hkv
      unfold pdfWavStep at hkv
      by_cases hl : getPartLabel f = none
      · rw [if_pos hl] at hkv
        exact h2 kv hkv
      · rw [if_neg hl] at hkv
        by_cases hp : endsWith (lowerS f) (strL ".pdf") = true
        · rw [if_pos hp] at hkv
          exact h2 kv hkv
        · rw [if_neg hp] at hkv
          by_cases hw : endsWith (lowerS f) (strL ".wav") = true
          · rw [if_pos hw] at hkv
            dsimp only at hkv
            rcases assocSet_mem _ _ _ _ hkv with hold | hnew
            · exact h2 kv hold
            · rw [hnew]
              exact ⟨hsub f (List.mem_cons_self _ _), hw, rfl⟩
          · rw [if_neg hw] at hkv
            exact h2 kv hkv

/-! ## Claim C4 -/

/-- C4 (amended): part pairing.  Every PartRecord produced for a Parts
folder pairs a PDF file and a WAV file from that folder whose keys — the
PDF's stem with its first trailing instrument suffix stripped, the WAV's
stem unchanged — both equal the record's `part_id`; keys with only one half
are dropped without error (no record exists for them).  And for a folder
holding exactly `X_bagpipes.pdf`, `X_bass.pdf`, `X.wav` where `X` contains
`"line"` and not `"phrase"` (case-insensitively — a `phrase`-containing `X`
gets label `phrase` by keyword priority, see the counterexample), the
output is exactly one PartRecord with `part_id = X`, label `line`,
`wav_path` the WAV, and `pdf_path` one of the two PDFs. -/
theorem part_pairing (files : List Str) (sid : Str) (items : Items) (X : Str) :
    (∀ r ∈ discoverParts files sid items,
      ∃ pf wf, pf ∈ files ∧ wf ∈ files
        ∧ endsWith (lowerS pf) (strL ".pdf") = true
        ∧ endsWith (lowerS wf) (strL ".wav") = true
        ∧ stemToBaseKey (stemOf pf) true = r.part_id
        ∧ stemToBaseKey (stemOf wf) false = r.part_id
        ∧ r.pdf_path = pf ∧ r.wav_path = wf)
    ∧ (containsSub (strL "line") (lowerS X) = true →
      containsSub (strL "phrase") (lowerS X) = false →
      ∃ pdf, (pdf = X ++ strL "_bagpipes.pdf" ∨ pdf = X ++ strL "_bass.pdf")
        ∧ discoverParts
            [X ++ strL "_bagpipes.pdf", X ++ strL "_bass.pdf",
             X ++ strL ".wav"] sid items
          = [{ part_id := X, short_label := shortPartLabel X,
               label := strL "line", pdf_path := pdf,
               wav_path := X ++ strL ".wav",
               part_full_id := [], tune_id := [], tune_name := [] }]) := by
  constructor
  · intro r hr
    obtain ⟨lb, _, hr2⟩ := List.mem_flatMap.mp hr
    obtain ⟨t, ht, ht2⟩ := List.mem_map.mp hr2
    have htb : t ∈ bucketFor lb files := by
      have hperm := List.perm_insertionSort
        (fun a b : Str × Str × Str =>
          streakFor sid items a.1 ≤ streakFor sid items b.1)
        (bucketFor lb files)
      exact hperm.mem_iff.mp ht
    have hta : t ∈ acceptedTriples files := List.mem_of_mem_filter htb
    unfold acceptedTriples at hta
    obtain ⟨k, _, hk2⟩ := List.mem_filterMap.mp hta
    obtain ⟨k', p, w⟩ := t
    cases hgp : assocGet (pdfWavDicts files).1 k with
    | none => rw [hgp] at hk2; cases hgw : assocGet (pdfWavDicts files).2 k <;>
        rw [hgw] at hk2 <;> simp at hk2
    | some p0 =>
      cases hgw : assocGet (pdfWavDicts files).2 k with
      | none => rw [hgp, hgw] at hk2; simp at hk2
      | some w0 =>
        rw [hgp, hgw] at hk2
        obtain ⟨hkk, hpp, hww⟩ : k = k' ∧ p0 = p ∧ w0 = w := by
          have := Option.some_inj.mp hk2
          exact ⟨congrArg Prod.fst this,
            congrArg (fun u => u.2.1) this, congrArg (fun u => u.2.2) this⟩
        have hmemp : (k, p0) ∈ (pdfWavDicts files).1 := assocGet_mem _ _ _ hgp
        have hmemw : (k, w0) ∈ (pdfWavDicts files).2 := assocGet_mem _ _ _ hgw
        have hinv := pdfWavDicts_entries files files ([], [])
          (fun f hf => hf) (by intro kv hkv; simp at hkv)
          (by intro kv hkv; simp at hkv)
        have hip := hinv.1 (k, p0) hmemp
        have hiw := hinv.2 (k, w0) hmemw
        refine ⟨p0, w0, hip.1, hiw.1, hip.2.1, hiw.2.1, ?_, ?_, ?_, ?_⟩
        · rw [← ht2]
          show stemToBaseKey (stemOf p0) true = k'
          rw [hip.2.2]
          exact hkk
        · rw [← ht2]
          show stemToBaseKey (stemOf w0) false = k'
          rw [hiw.2.2]
          exact hkk
        · rw [← ht2]
          show p = p0
          exact hpp.symm
        · rw [← ht2]
          show w = w0
          exact hww.symm
  · intro hline hnophrase
    have hX1 : 1 ≤ X.length := by
      cases X with
      | nil =>
        rw [show lowerS [] = ([] : Str) from rfl,
          show containsSub (strL "line") ([] : Str) = false from rfl] at hline
        exact Bool.noConfusion hline
      | cons c cs => simp [List.length_cons]
    -- abbreviations for the three file names
    have hlow1 : lowerS (X ++ strL "_bagpipes.pdf")
        = lowerS X ++ strL "_bagpipes.pdf" := by
      rw [lowerS_append]
      rfl
    have hlow2 : lowerS (X ++ strL "_bass.pdf")
        = lowerS X ++ strL "_bass.pdf" := by
      rw [lowerS_append]
      rfl
    have hlow3 : lowerS (X ++ strL ".wav") = lowerS X ++ strL ".wav" := by
      rw [lowerS_append]
      rfl
    -- none of the suffixes introduces "phrase"
    have hnoph : ∀ C : Str, C.head? = some '_' ∨ C.head? = some '.' →
        containsSub (strL "phrase") C = false →
        containsSub (strL "phrase") (lowerS X ++ C) = false := by
      intro C hh hnc
      by_contra hcon
      have htrue : containsSub (strL "phrase") (lowerS X ++ C) = true := by
        simpa using hcon
      rcases containsSub_append_split _ _ _ htrue with h | h | ⟨c, hc1, hc2⟩
      · exact Bool.noConfusion (hnophrase ▸ h)
      · exact Bool.noConfusion (hnc ▸ h)
      · rcases hh with hh | hh
        · rw [hh] at hc1
          have hcu : c = '_' := (Option.some_inj.mp hc1).symm
          rw [hcu] at hc2
          exact absurd hc2 (by decide)
        · rw [hh] at hc1
          have hcu : c = '.' := (Option.some_inj.mp hc1).symm
          rw [hcu] at hc2
          exact absurd hc2 (by decide)
    have hnoph1 : containsSub (strL "phrase")
        (lowerS (X ++ strL "_bagpipes.pdf")) = false := by
      rw [hlow1]
      exact hnoph _ (Or.inl rfl) (by decide)
    have hnoph2 : containsSub (strL "phrase")
        (lowerS (X ++ strL "_bass.pdf")) = false := by
      rw [hlow2]
      exact hnoph _ (Or.inl rfl) (by decide)
    have hnoph3 : containsSub (strL "phrase")
        (lowerS (X ++ strL ".wav")) = false := by
      rw [hlow3]
      exact hnoph _ (Or.inr rfl) (by decide)
    have hline1 : containsSub (strL "line")
        (lowerS (X ++ strL "_bagpipes.pdf")) = true := by
      rw [hlow1]
      exact containsSub_append_of_left _ _ _ hline
    have hline2 : containsSub (strL "line")
        (lowerS (X ++ strL "_bass.pdf")) = true := by
      rw [hlow2]
      exact containsSub_append_of_left _ _ _ hline
    have hline3 : containsSub (strL "line")
        (lowerS (X ++ strL ".wav")) = true := by
      rw [hlow3]
      exact containsSub_append_of_left _ _ _ hline
    have hgl1 : getPartLabel (X ++ strL "_bagpipes.pdf") = some (strL "line") := by
      rw [getPartLabel_ite, if_neg (by simp [hnoph1]), if_pos hline1]
    have hgl2 : getPartLabel (X ++ strL "_bass.pdf") = some (strL "line") := by
      rw [getPartLabel_ite, if_neg (by simp [hnoph2]), if_pos hline2]
    have hgl3 : getPartLabel (X ++ strL ".wav") = some (strL "line") := by
      rw [getPartLabel_ite, if_neg (by simp [hnoph3]), if_pos hline3]
    have hglX : getPartLabel X = some (strL "line") := by
      rw [getPartLabel_ite, if_neg (by simp [hnophrase]), if_pos hline]
    -- extensions end with the expected extensions
    have hend1 : endsWith (lowerS (X ++ strL "_bagpipes.pdf")) (strL ".pdf")
        = true := by
      rw [hlow1]
      exact endsWith_append_right _ _ _ (by decide)
    have hend2 : endsWith (lowerS (X ++ strL "_bass.pdf")) (strL ".pdf")
        = true := by
      rw [hlow2]
      exact endsWith_append_right _ _ _ (by decide)
    have hend3w : endsWith (lowerS (X ++ strL ".wav")) (strL ".wav") = true := by
      rw [hlow3]
      exact endsWith_append_right _ _ _ (by decide)
    have hend3p : endsWith (lowerS (X ++ strL ".wav")) (strL ".pdf") = false := by
      exact endsWith_disjoint _ _ _ hend3w (by decide) (by decide)
    -- stems and pairing keys
    have hstem1 : stemOf (X ++ strL "_bagpipes.pdf") = X ++ strL "_bagpipes" := by
      rw [stemOf_append X (strL "_bagpipes.pdf") 9 (by decide) (by omega)
        (by decide)]
      rfl
    have hstem2 : stemOf (X ++ strL "_bass.pdf") = X ++ strL "_bass" := by
      rw [stemOf_append X (strL "_bass.pdf") 5 (by decide) (by omega)
        (by decide)]
      rfl
    have hstem3 : stemOf (X ++ strL ".wav") = X := by
      rw [stemOf_append X (strL ".wav") 0 (by decide) (by omega) (by decide)]
      simp
    have hkey1 : stemToBaseKey (stemOf (X ++ strL "_bagpipes.pdf")) true = X := by
      rw [hstem1]
      exact stemToBaseKey_bagpipes X
    have hkey2 : stemToBaseKey (stemOf (X ++ strL "_bass.pdf")) true = X := by
      rw [hstem2]
      exact stemToBaseKey_bass X
    have hkey3 : stemToBaseKey (stemOf (X ++ strL ".wav")) false = X := by
      rw [hstem3]
      exact stemToBaseKey_wav X
    -- the dict-building steps
    have hstep1 : pdfWavStep ([], []) (X ++ strL "_bagpipes.pdf")
        = ([(X, X ++ strL "_bagpipes.pdf")], []) := by
      unfold pdfWavStep
      rw [if_neg (by rw [hgl1]; simp)]
      dsimp only
      rw [if_pos hend1, hkey1]
      rfl
    have hstep2 : pdfWavStep ([(X, X ++ strL "_bagpipes.pdf")], [])
        (X ++ strL "_bass.pdf")
        = ([(X, X ++ strL "_bass.pdf")], []) := by
      unfold pdfWavStep
      rw [if_neg (by rw [hgl2]; simp)]
      dsimp only
      rw [if_pos hend2, hkey2]
      show (pdfWavStep.assocSet [(X, X ++ strL "_bagpipes.pdf")] X
        (X ++ strL "_bass.pdf"), ([] : List (Str × Str)))
        = ([(X, X ++ strL "_bass.pdf")], [])
      unfold pdfWavStep.assocSet
      rw [if_pos rfl]
    have hstep3 : pdfWavStep ([(X, X ++ strL "_bass.pdf")], [])
        (X ++ strL ".wav")
        = ([(X, X ++ strL "_bass.pdf")], [(X, X ++ strL ".wav")]) := by
      unfold pdfWavStep
      rw [if_neg (by rw [hgl3]; simp)]
      dsimp only
      rw [if_neg (by rw [hend3p]; simp), if_pos hend3w, hkey3]
      rfl
    have hdicts : pdfWavDicts [X ++ strL "_bagpipes.pdf", X ++ strL "_bass.pdf",
        X ++ strL ".wav"]
        = ([(X, X ++ strL "_bass.pdf")], [(X, X ++ strL ".wav")]) := by
      unfold pdfWavDicts
      rw [List.foldl_cons, hstep1, List.foldl_cons, hstep2, List.foldl_cons,
        hstep3, List.foldl_nil]
    have hkeys : keysOfUnion [(X, X ++ strL "_bass.pdf")]
        [(X, X ++ strL ".wav")] = [X] := by
      unfold keysOfUnion
      rw [show ([(X, X ++ strL "_bass.pdf")].map Prod.fst
          ++ [(X, X ++ strL ".wav")].map Prod.fst) = [X, X] by simp]
      rw [List.dedup_cons_of_mem (by simp)]
      show sortStrs [X] = [X]
      unfold sortStrs
      simp [List.insertionSort, List.orderedInsert]
    have haccept : acceptedTriples [X ++ strL "_bagpipes.pdf",
        X ++ strL "_bass.pdf", X ++ strL ".wav"]
        = [(X, X ++ strL "_bass.pdf", X ++ strL ".wav")] := by
      unfold acceptedTriples
      dsimp only
      rw [hdicts]
      dsimp only
      rw [hkeys]
      show List.filterMap _ [X] = _
      simp only [List.filterMap_cons, List.filterMap_nil]
      rw [show assocGet [(X, X ++ strL "_bass.pdf")] X
          = some (X ++ strL "_bass.pdf") by unfold assocGet; rw [if_pos rfl],
        show assocGet [(X, X ++ strL ".wav")] X
          = some (X ++ strL ".wav") by unfold assocGet; rw [if_pos rfl]]
    refine ⟨X ++ strL "_bass.pdf", Or.inr rfl, ?_⟩
    unfold discoverParts bucketFor
    rw [haccept,
      show PART_LABELS = [strL "phrase", strL "line", strL "part"] from rfl]
    simp only [List.flatMap_cons, List.flatMap_nil, List.filter_cons,
      List.filter_nil, hglX]
    rw [if_neg (by decide), if_pos (by decide), if_neg (by decide)]
    simp [List.insertionSort, List.orderedInsert, mkPartRec]

/-- Witness for C4 at `X = "Set 05 line 2"`: the concrete folder yields the
single expected line record paired from the `_bass` PDF and the WAV. -/
theorem part_pairing_witness :
    ∃ pdf, (pdf = strL "Set 05 line 2" ++ strL "_bagpipes.pdf"
        ∨ pdf = strL "Set 05 line 2" ++ strL "_bass.pdf")
      ∧ discoverParts
          [strL "Set 05 line 2" ++ strL "_bagpipes.pdf",
           strL "Set 05 line 2" ++ strL "_bass.pdf",
           strL "Set 05 line 2" ++ strL ".wav"] (strL "S") []
        = [{ part_id := strL "Set 05 line 2",
             short_label := shortPartLabel (strL "Set 05 line 2"),
             label := strL "line",
             pdf_path := pdf,
             wav_path := strL "Set 05 line 2" ++ strL ".wav",
             part_full_id := [], tune_id := [], tune_name := [] }] :=
  (part_pairing [] (strL "S") [] (strL "Set 05 line 2")).2
    (by decide) (by decide)

/-- Counterexample to C4 as stated: with `X = "phrase line"` (which contains
`"line"`), the produced record's label is `phrase`, not `line` — the label
is the first keyword of `phrase, line, part` found in the key, and `phrase`
is checked first. -/
theorem part_pairing_phrase_priority_cex :
    (discoverParts [strL "phrase line_bagpipes.pdf",
        strL "phrase line_bass.pdf", strL "phrase line.wav"]
      (strL "S") []).map PartRecord.label = [strL "phrase"]
    ∧ containsSub (strL "line") (lowerS (strL "phrase line")) = true
    ∧ strL "phrase" ≠ strL "line" := by
  decide

/-! ## Order lemmas for `listLt`/`listLe` (Python string comparison) -/

theorem listLt_irrefl : ∀ a : Str, listLt a a = false := by
  intro a
  induction a with
  | nil => rfl
  | cons x xs ih =>
    show (if x = x then listLt xs xs else decide (x.toNat < x.toNat)) = false
    rw [if_pos rfl]
    exact ih

theorem listLt_trans : ∀ a b c : Str, listLt a b = true → listLt b c = true →
    listLt a c = true := by
  intro a
  induction a with
  | nil =>
    intro b c hab hbc
    cases b with
    | nil => exact Bool.noConfusion hab
    | cons y bs =>
      cases c with
      | nil => exact Bool.noConfusion hbc
      | cons z cs => rfl
  | cons x xs ih =>
    intro b c hab hbc
    cases b with
    | nil => exact Bool.noConfusion hab
    | cons y bs =>
      cases c with
      | nil => exact Bool.noConfusion hbc
      | cons z cs =>
        show (if x = z then listLt xs cs else decide (x.toNat < z.toNat)) = true
        have hab' : (if x = y then listLt xs bs
            else decide (x.toNat < y.toNat)) = true := hab
        have hbc' : (if y = z then listLt bs cs
            else decide (y.toNat < z.toNat)) = true := hbc
        by_cases hxy : x = y
        · rw [if_pos hxy] at hab'
          by_cases hyz : y = z
          · rw [if_pos hyz] at hbc'
            rw [if_pos (hxy.trans hyz)]
            exact ih bs cs hab' hbc'
          · rw [if_neg hyz] at hbc'
            have hyzlt : y.toNat < z.toNat := of_decide_eq_true hbc'
            have hxz : x ≠ z := by
              intro he
              apply hyz
              rw [← hxy]
              exact he
            rw [if_neg hxz]
            apply decide_eq_true
            rw [hxy]
            exact hyzlt
        · rw [if_neg hxy] at hab'
          have hxylt : x.toNat < y.toNat := of_decide_eq_true hab'
          by_cases hyz : y = z
          · have hxz : x ≠ z := by
              intro he
              rw [he, ← hyz] at hxylt
              rw [hyz] at hxylt
              exact Nat.lt_irrefl _ hxylt
            rw [if_neg hxz]
            apply decide_eq_true
            rw [← hyz]
            exact hxylt
          · rw [if_neg hyz] at hbc'
            have hyzlt : y.toNat < z.toNat := of_decide_eq_true hbc'
            have hlt : x.toNat < z.toNat := Nat.lt_trans hxylt hyzlt
            have hxz : x ≠ z := by
              intro he
              rw [he] at hlt
              exact Nat.lt_irrefl _ hlt
            rw [if_neg hxz]
            exact decide_eq_true hlt

theorem listLt_trichotomy : ∀ a b : Str,
    listLt a b = true ∨ listLt b a = true ∨ a = b := by
  intro a
  induction a with
  | nil =>
    intro b
    cases b with
    | nil => right; right; rfl
    | cons y bs => left; rfl
  | cons x xs ih =>
    intro b
    cases b with
    | nil => right; left; rfl
    | cons y bs =>
      by_cases hxy : x = y
      · rcases ih bs with h | h | h
        · left
          show (if x = y then listLt xs bs else _) = true
          rw [if_pos hxy]
          exact h
        · right; left
          show (if y = x then listLt bs xs else _) = true
          rw [if_pos hxy.symm]
          exact h
        · right; right
          rw [hxy, h]
      · rcases Nat.lt_trichotomy x.toNat y.toNat with h | h | h
        · left
          show (if x = y then listLt xs bs else decide (x.toNat < y.toNat)) = true
          rw [if_neg hxy]
          exact decide_eq_true h
        · refine absurd (Char.eq_of_val_eq ?_) hxy
          apply UInt32.eq_of_toBitVec_eq
          apply BitVec.eq_of_toNat_eq
          exact h
        · right; left
          show (if y = x then listLt bs xs else decide (y.toNat < x.toNat)) = true
          rw [if_neg (fun he => hxy he.symm)]
          exact decide_eq_true h

theorem listLt_asymm (a b : Str) (h : listLt a b = true) : listLt b a = false := by
  by_contra hcon
  have h2 : listLt b a = true := by simpa using hcon
  have := listLt_trans a b a h h2
  rw [listLt_irrefl] at this
  exact Bool.noConfusion this

theorem listLe_of_lt (a b : Str) (h : listLt a b = true) : listLe a b = true := by
  unfold listLe
  rw [listLt_asymm a b h]
  rfl

theorem listLt_of_le_of_ne (a b : Str) (hle : listLe a b = true) (hne : a ≠ b) :
    listLt a b = true := by
  rcases listLt_trichotomy a b with h | h | h
  · exact h
  · unfold listLe at hle
    rw [h] at hle
    exact Bool.noConfusion hle
  · exact absurd h hne

theorem listLe_trans (a b c : Str) (hab : listLe a b = true)
    (hbc : listLe b c = true) : listLe a c = true := by
  unfold listLe at *
  by_contra hcon
  have hca : listLt c a = true := by
    cases hlt : listLt c a with
    | false => rw [hlt] at hcon; exact absurd rfl hcon
    | true => rfl
  rcases listLt_trichotomy a b with h | h | h
  · have := listLt_trans c a b hca h
    rw [this] at hbc
    exact Bool.noConfusion hbc
  · rw [h] at hab
    exact Bool.noConfusion hab
  · rw [h] at hca
    rw [hca] at hbc
    exact Bool.noConfusion hbc

theorem listLe_total (a b : Str) : listLe a b = true ∨ listLe b a = true := by
  rcases listLt_trichotomy a b with h | h | h
  · left; exact listLe_of_lt a b h
  · right; exact listLe_of_lt b a h
  · left
    unfold listLe
    rw [h, listLt_irrefl]
    rfl

theorem sortStrs_pairwise_lt (l : List Str) (hnd : l.Nodup) :
    List.Pairwise (fun a b => listLt a b = true) (sortStrs l) := by
  unfold sortStrs
  haveI : IsTrans Str (fun a b => listLe a b = true) :=
    ⟨fun a b c => listLe_trans a b c⟩
  haveI : IsTotal Str (fun a b => listLe a b = true) := ⟨listLe_total⟩
  have hsorted := List.sorted_insertionSort (fun a b => listLe a b = true) l
  have hnd2 : (List.insertionSort (fun a b => listLe a b = true) l).Nodup :=
    (List.perm_insertionSort _ l).nodup_iff.mpr hnd
  exact (List.Pairwise.and hsorted hnd2).imp
    (fun h => listLt_of_le_of_ne _ _ h.1 h.2)

theorem keysOfUnion_pairwise (p w : List (Str × Str)) :
    List.Pairwise (fun a b => listLt a b = true) (keysOfUnion p w) :=
  sortStrs_pairwise_lt _ (List.nodup_dedup _)

theorem acceptedTriples_pairwise (files : List Str) :
    List.Pairwise (fun a b : Str × Str × Str => listLt a.1 b.1 = true)
      (acceptedTriples files) := by
  unfold acceptedTriples
  dsimp only
  rw [List.pairwise_filterMap]
  apply (keysOfUnion_pairwise (pdfWavDicts files).1 (pdfWavDicts files).2).imp
  intro a b hab x hx y hy
  have hxa : x.1 = a := by
    cases h1 : assocGet (pdfWavDicts files).1 a with
    | none =>
      rw [h1] at hx
      cases h2 : assocGet (pdfWavDicts files).2 a <;> rw [h2] at hx <;>
        exact Option.noConfusion hx
    | some p0 =>
      cases h2 : assocGet (pdfWavDicts files).2 a with
      | none =>
        rw [h1, h2] at hx
        exact Option.noConfusion hx
      | some w0 =>
        rw [h1, h2] at hx
        rw [← Option.some_inj.mp hx]
  have hyb : y.1 = b := by
    cases h1 : assocGet (pdfWavDicts files).1 b with
    | none =>
      rw [h1] at hy
      cases h2 : assocGet (pdfWavDicts files).2 b <;> rw [h2] at hy <;>
        exact Option.noConfusion hy
    | some p0 =>
      cases h2 : assocGet (pdfWavDicts files).2 b with
      | none =>
        rw [h1, h2] at hy
        exact Option.noConfusion hy
      | some w0 =>
        rw [h1, h2] at hy
        rw [← Option.some_inj.mp hy]
  rw [hxa, hyb]
  exact hab

theorem orderedInsert_pairwise_lex {α : Type} (keyN : α → Int)
    (sec : α → α → Prop) (x : α) :
    ∀ S : List α,
    List.Pairwise (fun a b => keyN a < keyN b ∨ (keyN a = keyN b ∧ sec a b)) S →
    (∀ y ∈ S, sec x y) →
    List.Pairwise (fun a b => keyN a < keyN b ∨ (keyN a = keyN b ∧ sec a b))
      (List.orderedInsert (fun a b => keyN a ≤ keyN b) x S) := by
  intro S
  induction S with
  | nil =>
    intro _ _
    simp [List.orderedInsert]
  | cons y ys ih =>
    intro hS hx
    by_cases hcmp : keyN x ≤ keyN y
    · rw [List.orderedInsert, if_pos hcmp]
      refine List.pairwise_cons.mpr ⟨?_, hS⟩
      intro z hz
      rcases List.mem_cons.mp hz with hzy | hzys
      · rw [hzy]
        rcases lt_or_eq_of_le hcmp with hlt | heq
        · exact Or.inl hlt
        · exact Or.inr ⟨heq, hx y (List.mem_cons_self _ _)⟩
      · have hyz := (List.pairwise_cons.mp hS).1 z hzys
        have hyzle : keyN y ≤ keyN z := by
          rcases hyz with h | h
          · exact le_of_lt h
          · exact le_of_eq h.1
        have hxzle : keyN x ≤ keyN z := le_trans hcmp hyzle
        rcases lt_or_eq_of_le hxzle with hlt | heq
        · exact Or.inl hlt
        · exact Or.inr ⟨heq, hx z (List.mem_cons_of_mem _ hzys)⟩
    · rw [List.orderedInsert, if_neg hcmp]
      refine List.pairwise_cons.mpr
        ⟨?_, ih (List.pairwise_cons.mp hS).2
          (fun z hz => hx z (List.mem_cons_of_mem _ hz))⟩
      intro z hz
      rcases (List.mem_orderedInsert _).mp hz with hzx | hzys
      · rw [hzx]
        exact Or.inl (lt_of_not_le hcmp)
      · exact (List.pairwise_cons.mp hS).1 z hzys

theorem insertionSort_pairwise_lex {α : Type} (keyN : α → Int)
    (sec : α → α → Prop) :
    ∀ l : List α, List.Pairwise sec l →
    List.Pairwise (fun a b => keyN a < keyN b ∨ (keyN a = keyN b ∧ sec a b))
      (List.insertionSort (fun a b => keyN a ≤ keyN b) l) := by
  intro l
  induction l with
  | nil =>
    intro _
    exact List.Pairwise.nil
  | cons x xs ih =>
    intro hl
    rw [List.insertionSort]
    apply orderedInsert_pairwise_lex
    · exact ih (List.pairwise_cons.mp hl).2
    · intro y hy
      exact (List.pairwise_cons.mp hl).1 y ((List.mem_insertionSort _).mp hy)

/-! ## Claim C5 -/

/-- C5 (amended): part ordering.  The part list for a Parts folder is the
concatenation of its `phrase`, `line` and `part` records in that fixed
order; records of equal label appear in ascending streak order, where the
streak of a part is read from the PracticeItem keyed
`<set_id>|Parts|<key>` and an absent key or absent `streak` field counts
as 0; ties (equal label and equal streak) appear in ascending `part_id`
order — the model's canonical enumeration of the pairing-key set, standing
in for Python's unspecified `set` iteration order, which is NOT the
filesystem enumeration order claimed (see the counterexample). -/
theorem discover_parts_ordering (files : List Str) (sid : Str) (items : Items) :
    (discoverParts files sid items
      = (discoverParts files sid items).filter
          (fun r => decide (r.label = strL "phrase"))
        ++ ((discoverParts files sid items).filter
            (fun r => decide (r.label = strL "line"))
          ++ (discoverParts files sid items).filter
            (fun r => decide (r.label = strL "part"))))
    ∧ List.Pairwise (fun a b : PartRecord => a.label = b.label →
        streakFor sid items a.part_id < streakFor sid items b.part_id
        ∨ (streakFor sid items a.part_id = streakFor sid items b.part_id
          ∧ listLt a.part_id b.part_id = true))
        (discoverParts files sid items)
    ∧ (∀ pid : Str, lookupItem items (sid ++ strL "|Parts|" ++ pid) = none →
        streakFor sid items pid = 0)
    ∧ (∀ (pid : Str) (rec : PracticeItem),
        lookupItem items (sid ++ strL "|Parts|" ++ pid) = some rec →
        rec.streak = none → streakFor sid items pid = 0) := by
  have hout : discoverParts files sid items
      = (List.insertionSort (fun a b : Str × Str × Str =>
            streakFor sid items a.1 ≤ streakFor sid items b.1)
          (bucketFor (strL "phrase") files)).map (mkPartRec (strL "phrase"))
        ++ ((List.insertionSort (fun a b : Str × Str × Str =>
            streakFor sid items a.1 ≤ streakFor sid items b.1)
          (bucketFor (strL "line") files)).map (mkPartRec (strL "line"))
        ++ ((List.insertionSort (fun a b : Str × Str × Str =>
            streakFor sid items a.1 ≤ streakFor sid items b.1)
          (bucketFor (strL "part") files)).map (mkPartRec (strL "part"))
        ++ [])) := by
    unfold discoverParts
    rw [show PART_LABELS = [strL "phrase", strL "line", strL "part"] from rfl]
    simp only [List.flatMap_cons, List.flatMap_nil]
  have hlab : ∀ lb : Str, ∀ r ∈ (List.insertionSort
      (fun a b : Str × Str × Str =>
        streakFor sid items a.1 ≤ streakFor sid items b.1)
      (bucketFor lb files)).map (mkPartRec lb), r.label = lb := by
    intro lb r hr
    obtain ⟨t, _, ht2⟩ := List.mem_map.mp hr
    rw [← ht2]
    rfl
  have hK : ∀ lb : Str, List.Pairwise (fun a b : PartRecord =>
      streakFor sid items a.part_id < streakFor sid items b.part_id
      ∨ (streakFor sid items a.part_id = streakFor sid items b.part_id
        ∧ listLt a.part_id b.part_id = true))
      ((List.insertionSort (fun a b : Str × Str × Str =>
          streakFor sid items a.1 ≤ streakFor sid items b.1)
        (bucketFor lb files)).map (mkPartRec lb)) := by
    intro lb
    rw [List.pairwise_map]
    have hb : List.Pairwise
        (fun a b : Str × Str × Str => listLt a.1 b.1 = true)
        (bucketFor lb files) :=
      List.Pairwise.sublist (List.filter_sublist _) (acceptedTriples_pairwise files)
    have hs := insertionSort_pairwise_lex
      (fun t : Str × Str × Str => streakFor sid items t.1)
      (fun a b : Str × Str × Str => listLt a.1 b.1 = true)
      (bucketFor lb files) hb
    exact hs.imp (fun h => h)
  have hwithin : ∀ lb : Str, List.Pairwise
      (fun a b : PartRecord => a.label = b.label →
        streakFor sid items a.part_id < streakFor sid items b.part_id
        ∨ (streakFor sid items a.part_id = streakFor sid items b.part_id
          ∧ listLt a.part_id b.part_id = true))
      ((List.insertionSort (fun a b : Str × Str × Str =>
          streakFor sid items a.1 ≤ streakFor sid items b.1)
        (bucketFor lb files)).map (mkPartRec lb)) :=
    fun lb => (hK lb).imp (fun {a b} h (_ : a.label = b.label) => h)
  refine ⟨?_, ?_, ?_, ?_⟩
  · have hfilter : ∀ (lbx lby : Str), lbx ≠ lby →
        ((List.insertionSort (fun a b : Str × Str × Str =>
            streakFor sid items a.1 ≤ streakFor sid items b.1)
          (bucketFor lbx files)).map (mkPartRec lbx)).filter
            (fun r => decide (r.label = lby)) = [] := by
      intro lbx lby hne
      rw [List.filter_eq_nil_iff]
      intro r hr
      rw [hlab lbx r hr]
      simp [hne]
    have hfself : ∀ lbx : Str,
        ((List.insertionSort (fun a b : Str × Str × Str =>
            streakFor sid items a.1 ≤ streakFor sid items b.1)
          (bucketFor lbx files)).map (mkPartRec lbx)).filter
            (fun r => decide (r.label = lbx))
          = (List.insertionSort (fun a b : Str × Str × Str =>
            streakFor sid items a.1 ≤ streakFor sid items b.1)
          (bucketFor lbx files)).map (mkPartRec lbx) := by
      intro lbx
      rw [List.filter_eq_self]
      intro r hr
      rw [hlab lbx r hr]
      simp
    conv_lhs => rw [hout]
    rw [hout]
    simp only [List.filter_append, List.filter_nil, List.append_nil]
    rw [hfself (strL "phrase"), hfself (strL "line"), hfself (strL "part"),
      hfilter (strL "line") (strL "phrase") (by decide),
      hfilter (strL "part") (strL "phrase") (by decide),
      hfilter (strL "phrase") (strL "line") (by decide),
      hfilter (strL "part") (strL "line") (by decide),
      hfilter (strL "phrase") (strL "part") (by decide),
      hfilter (strL "line") (strL "part") (by decide)]
    simp
  · rw [hout]
    have hcross : ∀ (lbx lby : Str), lbx ≠ lby →
        ∀ a ∈ (List.insertionSort (fun a b : Str × Str × Str =>
            streakFor sid items a.1 ≤ streakFor sid items b.1)
          (bucketFor lbx files)).map (mkPartRec lbx),
        ∀ b ∈ (List.insertionSort (fun a b : Str × Str × Str =>
            streakFor sid items a.1 ≤ streakFor sid items b.1)
          (bucketFor lby files)).map (mkPartRec lby),
        a.label = b.label →
        streakFor sid items a.part_id < streakFor sid items b.part_id
        ∨ (streakFor sid items a.part_id = streakFor sid items b.part_id
          ∧ listLt a.part_id b.part_id = true) := by
      intro lbx lby hne a ha b hb heq
      exfalso
      apply hne
      rw [← hlab lbx a ha, ← hlab lby b hb]
      exact heq
    rw [List.pairwise_append]
    refine ⟨hwithin _, ?_, ?_⟩
    · rw [List.pairwise_append]
      refine ⟨hwithin _, ?_, ?_⟩
      · rw [List.pairwise_append]
        refine ⟨hwithin _, List.Pairwise.nil, by simp⟩
      · intro a ha b hb
        rcases List.mem_append.mp hb with hb1 | hb1
        · exact hcross _ _ (by decide) a ha b hb1
        · simp at hb1
    · intro a ha b hb
      rcases List.mem_append.mp hb with hb1 | hb1
      · exact hcross _ _ (by decide) a ha b hb1
      · rcases List.mem_append.mp hb1 with hb2 | hb2
        · exact hcross _ _ (by decide) a ha b hb2
        · simp at hb2
  · intro pid h
    unfold streakFor
    rw [h]
  · intro pid rec h hs
    unfold streakFor
    rw [h]
    dsimp only
    rw [hs]
    rfl

/-- Witness for C5 at concrete inputs: an unknown key counts as streak 0,
a stored record without a streak field counts as streak 0, and a concrete
two-part folder satisfies the bucket decomposition. -/
theorem discover_parts_ordering_witness :
    streakFor (strL "S") [] (strL "zzz") = 0
    ∧ streakFor (strL "S")
        [(strL "S|Parts|phrase_a", ⟨some (strL "part"), none, none, none,
          none, none⟩)] (strL "phrase_a") = 0
    ∧ discoverParts [strL "phrase_a.pdf", strL "phrase_a.wav",
          strL "b line.pdf", strL "b line.wav"] (strL "S") []
      = (discoverParts [strL "phrase_a.pdf", strL "phrase_a.wav",
          strL "b line.pdf", strL "b line.wav"] (strL "S") []).filter
          (fun r => decide (r.label = strL "phrase"))
        ++ ((discoverParts [strL "phrase_a.pdf", strL "phrase_a.wav",
          strL "b line.pdf", strL "b line.wav"] (strL "S") []).filter
            (fun r => decide (r.label = strL "line"))
          ++ (discoverParts [strL "phrase_a.pdf", strL "phrase_a.wav",
          strL "b line.pdf", strL "b line.wav"] (strL "S") []).filter
            (fun r => decide (r.label = strL "part"))) :=
  ⟨(discover_parts_ordering [] (strL "S") []).2.2.1 (strL "zzz") rfl,
    (discover_parts_ordering [] (strL "S")
      [(strL "S|Parts|phrase_a", ⟨some (strL "part"), none, none, none,
        none, none⟩)]).2.2.2 (strL "phrase_a")
      ⟨some (strL "part"), none, none, none, none, none⟩ (by decide) rfl,
    (discover_parts_ordering [strL "phrase_a.pdf", strL "phrase_a.wav",
      strL "b line.pdf", strL "b line.wav"] (strL "S") []).1⟩

/-- Counterexample to C5 as stated: equal-streak ties within a bucket are
NOT broken by the filesystem enumeration order.  In a folder enumerated as
`b line 1.*` before `a line 1.*`, with both keys absent from the mapping
(equal streak 0), the output lists `a line 1` first — the key set is
iterated in an order independent of file enumeration (Python iterates an
unordered hash set there), not in discovery order. -/
theorem discover_parts_fs_tiebreak_cex :
    (discoverParts [strL "b line 1.pdf", strL "b line 1.wav",
        strL "a line 1.pdf", strL "a line 1.wav"] (strL "S") []).map
        PartRecord.part_id = [strL "a line 1", strL "b line 1"]
    ∧ streakFor (strL "S") [] (strL "a line 1")
        = streakFor (strL "S") [] (strL "b line 1")
    ∧ [strL "a line 1", strL "b line 1"] ≠ [strL "b line 1", strL "a line 1"] := by
  decide

end PracticeManager
